import Mathlib

/-
  Verification of the A* shortest-path solver (`AStarAlgorithm.cpp`).

  The solver is embedded shallowly: C++ `std::vector`s become Lean `List`s
  indexed through checked accessors (`vGet`, `vSet`) that return an
  `undefined` error where the C++ code would index out of bounds; C++
  exceptions become the `CppErr` error type of an `Except` result; the
  priority queue (a min-heap on (f-score, vertex) pairs ordered
  lexicographically) becomes an ordered insertion list, which pops
  elements in exactly the heap's order since pairs that compare equal are
  identical; the two unbounded loops (the best-first search loop and the
  parent-pointer walk) take an explicit fuel that is proved sufficient.
-/

inductive CppErr where
  | invalidArgument
  | outOfRange
  | logicError
  | undefined
  | noFuel
deriving DecidableEq

instance {ε α : Type} [DecidableEq ε] [DecidableEq α] : DecidableEq (Except ε α) :=
  fun a b =>
    match a, b with
    | .ok x, .ok y =>
      if h : x = y then isTrue (by rw [h]) else
        isFalse (fun hc => by injection hc with hc; exact h hc)
    | .error x, .error y =>
      if h : x = y then isTrue (by rw [h]) else
        isFalse (fun hc => by injection hc with hc; exact h hc)
    | .ok _, .error _ => isFalse (fun hc => by cases hc)
    | .error _, .ok _ => isFalse (fun hc => by cases hc)

/-- Checked read of `l[i]` for a C++ `std::vector` access with an `int` index.
Out-of-range access is undefined behaviour in C++, reported here as `.undefined`. -/
def vGet {α : Type} (l : List α) (i : Int) : Except CppErr α :=
  if 0 ≤ i then
    match l[i.toNat]? with
    | some x => .ok x
    | none => .error .undefined
  else .error .undefined

/-- Checked write `l[i] = x` for a C++ `std::vector` access with an `int` index. -/
def vSet {α : Type} (l : List α) (i : Int) (x : α) : Except CppErr (List α) :=
  if 0 ≤ i ∧ i.toNat < l.length then .ok (l.set i.toNat x) else .error .undefined

/-- The sentinel `std::numeric_limits<int>::max()` used for "infinite" distance. -/
def inf : Int := 2147483647

/-- `getManhattenDistance` (sic) from the source: `abs(x1-x2) + abs(y1-y2)`. -/
def getManhattenDistance (x1 y1 x2 y2 : Int) : Int := |x1 - x2| + |y1 - y2|

/-! ### Grid scanning (`getCoordinates`, `initHeuristicValues`)

The C++ loops run `i` over `[0, grid.size())` and `j` over
`[0, grid[0].size())`; a row shorter than row 0 is read out of bounds. -/

/-- Scan one row for `target` at columns `j, j+1, ...` with `r` columns left
(the column bound is row 0's length, so a short row is an out-of-bounds read). -/
def scanRowFor (row : List Int) (target : Int) : Nat → Nat → Except CppErr (Option Nat)
  | _, 0 => .ok none
  | j, Nat.succ r =>
    match row[j]? with
    | none => .error .undefined
    | some c => if c = target then .ok (some j) else scanRowFor row target (j + 1) r

/-- Scan the rows of the grid for `target`, rows indexed from `i`. -/
def scanRowsFor (w : Nat) (target : Int) : Nat → List (List Int) → Except CppErr (Option (Nat × Nat))
  | _, [] => .ok none
  | i, row :: rows =>
    match scanRowFor row target 0 w with
    | .error e => .error e
    | .ok (some j) => .ok (some (i, j))
    | .ok none => scanRowsFor w target (i + 1) rows

/-- `AStarSolver::getCoordinates`: linear scan of the grid for `node`;
throws `std::invalid_argument` when the node is absent. -/
def getCoordinates (grid : List (List Int)) (node : Int) : Except CppErr (Nat × Nat) :=
  match grid with
  | [] => .error .invalidArgument
  | r0 :: _ =>
    match scanRowsFor r0.length node 0 grid with
    | .error e => .error e
    | .ok (some p) => .ok p
    | .ok none => .error .invalidArgument

/-- One row of the heuristic-caching scan: for every cell `u ≠ -1` the code writes
`heuristicValues[u] = getManhattenDistance(i, j, x, y)` with no bounds check on `u`. -/
def initHeuRow (hv : List Int) (row : List Int) (i x y : Nat) : Nat → Nat → Except CppErr (List Int)
  | _, 0 => .ok hv
  | j, Nat.succ r =>
    match row[j]? with
    | none => .error .undefined
    | some u =>
      if u = -1 then initHeuRow hv row i x y (j + 1) r
      else
        match vSet hv u (getManhattenDistance i j x y) with
        | .error e => .error e
        | .ok hv' => initHeuRow hv' row i x y (j + 1) r

/-- The heuristic-caching scan over all rows (row width is row 0's length). -/
def initHeuRows (w x y : Nat) : Nat → List Int → List (List Int) → Except CppErr (List Int)
  | _, hv, [] => .ok hv
  | i, hv, row :: rows =>
    match initHeuRow hv row i x y 0 w with
    | .error e => .error e
    | .ok hv' => initHeuRows w x y (i + 1) hv' rows

/-- `AStarSolver::initHeuristicValues`: locate the destination, then cache the
Manhattan distance of every grid vertex to the destination's coordinates. -/
def initHeuristicValues (hv : List Int) (grid : List (List Int)) (dst : Int) :
    Except CppErr (List Int) :=
  match getCoordinates grid dst with
  | .error e => .error e
  | .ok (x, y) =>
    match grid with
    | [] => .ok hv
    | r0 :: _ => initHeuRows r0.length x y 0 hv grid

/-! ### Graph construction -/

/-- The body of the constructor's edge loop: validate one `(u, v, w)` edge and insert
it in both directions (`graph[u].push_back({v,w}); graph[v].push_back({u,w})`). -/
def addEdgeBoth (g : List (List (Int × Int))) (V u v w : Int) :
    Except CppErr (List (List (Int × Int))) :=
  if u < 0 ∨ V ≤ u ∨ v < 0 ∨ V ≤ v then .error .outOfRange
  else if w < 0 then .error .invalidArgument
  else
    match vGet g u with
    | .error e => .error e
    | .ok adjU =>
      match vSet g u (adjU ++ [(v, w)]) with
      | .error e => .error e
      | .ok g1 =>
        match vGet g1 v with
        | .error e => .error e
        | .ok adjV =>
          match vSet g1 v (adjV ++ [(u, w)]) with
          | .error e => .error e
          | .ok g2 => .ok g2

/-- The constructor's edge loop over the whole edge list. -/
def buildGraph (V : Int) : List (List (Int × Int)) → List (Int × Int × Int) →
    Except CppErr (List (List (Int × Int)))
  | g, [] => .ok g
  | g, (u, v, w) :: rest =>
    match addEdgeBoth g V u v w with
    | .error e => .error e
    | .ok g' => buildGraph V g' rest

/-- The solver state: the C++ data members of `class AStarSolver`. -/
structure AStarSolver where
  graph : List (List (Int × Int))
  heuristicValues : List Int
  source : Int
  destination : Int
  V : Int
  shortestDistance : Int
  parent : List Int
  path : List Int
deriving DecidableEq

/-- The `AStarSolver` constructor: validates `V`, the edges and their weights,
builds the undirected adjacency lists, and caches the heuristic table. -/
def mkAStarSolver (grid : List (List Int)) (edges : List (Int × Int × Int))
    (src dst V : Int) : Except CppErr AStarSolver :=
  if V ≤ 0 then .error .invalidArgument
  else
    match buildGraph V (List.replicate V.toNat []) edges with
    | .error e => .error e
    | .ok g =>
      match initHeuristicValues (List.replicate V.toNat 0) grid dst with
      | .error e => .error e
      | .ok hv =>
        .ok { graph := g, heuristicValues := hv, source := src, destination := dst,
              V := V, shortestDistance := -1, parent := [], path := [] }

/-! ### The best-first search loop (`AStarSolver::solve`) -/

/-- Ordered insertion into the pending queue: the C++ `std::priority_queue` with
`std::greater<>` pops the least `(f-score, vertex)` pair lexicographically, and
pairs comparing equal are identical, so a sorted list pops in the same order. -/
def pqInsert (x : Int × Int) : List (Int × Int) → List (Int × Int)
  | [] => [x]
  | y :: ys =>
    if x.1 < y.1 ∨ (x.1 = y.1 ∧ x.2 ≤ y.2) then x :: y :: ys else y :: pqInsert x ys

/-- The lazy-deletion loop: pop queue entries whose vertex is already closed. -/
def dropClosed (closed : List Bool) : List (Int × Int) → Except CppErr (List (Int × Int))
  | [] => .ok []
  | (fs, n) :: rest =>
    match vGet closed n with
    | .error e => .error e
    | .ok true => dropClosed closed rest
    | .ok false => .ok ((fs, n) :: rest)

/-- Lower bound of the C++ `int` range, `std::numeric_limits<int>::min()`. -/
def intMin : Int := -2147483648

/-- C++ `int` addition: a sum outside `[intMin, inf]` is signed-integer
overflow, which is undefined behaviour in the source. -/
def intAdd (a b : Int) : Except CppErr Int :=
  if a + b < intMin ∨ inf < a + b then .error .undefined else .ok (a + b)

/-- The neighbour-relaxation loop run when `u` is closed: for each non-closed
neighbour `v`, compute the `int` sum `dist[u] + w` (signed overflow is
undefined behaviour) and, if it is below `dist[v]`, update `dist[v]`,
`parent[v]` and push `(f(v), v)` with `f(v) = dist[v] + heuristicValues[v]`,
again an `int` sum with overflow undefined. -/
def relaxAll (hvals : List Int) (closed : List Bool) (u : Int) :
    List (Int × Int) → List Int → List Int → List (Int × Int) →
    Except CppErr (List Int × List Int × List (Int × Int))
  | [], dist, parent, pq => .ok (dist, parent, pq)
  | (v, w) :: rest, dist, parent, pq =>
    match vGet closed v with
    | .error e => .error e
    | .ok true => relaxAll hvals closed u rest dist parent pq
    | .ok false =>
      match vGet dist u with
      | .error e => .error e
      | .ok du =>
        match intAdd du w with
        | .error e => .error e
        | .ok t =>
          match vGet dist v with
          | .error e => .error e
          | .ok dv =>
            if t < dv then
              match vSet dist v t with
              | .error e => .error e
              | .ok dist' =>
                match vSet parent v u with
                | .error e => .error e
                | .ok parent' =>
                  match vGet hvals v with
                  | .error e => .error e
                  | .ok hv =>
                    match intAdd t hv with
                    | .error e => .error e
                    | .ok fs => relaxAll hvals closed u rest dist' parent' (pqInsert (fs, v) pq)
            else relaxAll hvals closed u rest dist parent pq

/-- The `while (!pq.empty())` search loop, with explicit fuel. -/
def loop (g : List (List (Int × Int))) (hvals : List Int) (dstI : Int) :
    Nat → List (Int × Int) → List Int → List Int → List Bool →
    Except CppErr (Bool × List Int × List Int)
  | 0, _, _, _, _ => .error .noFuel
  | Nat.succ fuel, pq, dist, parent, closed =>
    match dropClosed closed pq with
    | .error e => .error e
    | .ok [] => .ok (false, dist, parent)
    | .ok ((_, u) :: rest) =>
      if u = dstI then .ok (true, dist, parent)
      else
        match vSet closed u true with
        | .error e => .error e
        | .ok closed' =>
          match vGet g u with
          | .error e => .error e
          | .ok adj =>
            match relaxAll hvals closed' u adj dist parent rest with
            | .error e => .error e
            | .ok (dist', parent', pq') => loop g hvals dstI fuel pq' dist' parent' closed'

/-- Total queue work still possible from `closed`: each non-closed vertex can be
closed once and then push at most its adjacency-list length of new entries. -/
def uw : List (List (Int × Int)) → List Bool → Nat
  | _, [] => 0
  | [], _ :: cs => uw [] cs
  | adj :: gs, c :: cs => (if c then 0 else adj.length + 1) + uw gs cs

/-- Fuel that provably dominates the search loop's iteration count. -/
def solveFuel (g : List (List (Int × Int))) : Nat :=
  2 + uw g (List.replicate g.length false)

/-- The body of `AStarSolver::solve` acting on the fields it reads: fresh
`closed`, `dist` (all `inf` except `dist[source] = 0`) and `parent` arrays,
then the search loop seeded with `(f(source), source)`. -/
def solveCore (g : List (List (Int × Int))) (hvals : List Int) (srcI dstI V : Int) :
    Except CppErr (Bool × List Int × List Int) :=
  match vSet (List.replicate V.toNat inf) srcI 0 with
  | .error e => .error e
  | .ok dist =>
    match vGet dist srcI with
    | .error e => .error e
    | .ok dsrc =>
      match vGet hvals srcI with
      | .error e => .error e
      | .ok hsrc =>
        loop g hvals dstI (solveFuel g) (pqInsert (dsrc + hsrc, srcI) [])
          dist (List.replicate V.toNat (-1)) (List.replicate V.toNat false)

/-- `AStarSolver::solve`: on success records `shortestDistance = dist[destination]`
and returns `true`; on frontier exhaustion returns `false` leaving
`shortestDistance` as it was.  The `parent` member is overwritten either way. -/
def AStarSolver.solve (s : AStarSolver) : Except CppErr (Bool × AStarSolver) :=
  match solveCore s.graph s.heuristicValues s.source s.destination s.V with
  | .error e => .error e
  | .ok (true, dist, par) =>
    match vGet dist s.destination with
    | .error e => .error e
    | .ok d => .ok (true, { s with parent := par, shortestDistance := d })
  | .ok (false, _, par) => .ok (false, { s with parent := par })

/-- `AStarSolver::getShortestPath`: solves first when the distance is still the
`-1` sentinel, then returns the stored distance. -/
def AStarSolver.getShortestPath (s : AStarSolver) : Except CppErr (Int × AStarSolver) :=
  if s.shortestDistance = -1 then
    match AStarSolver.solve s with
    | .error e => .error e
    | .ok (_, s') => .ok (s'.shortestDistance, s')
  else .ok (s.shortestDistance, s)

/-- The parent-pointer walk of `reconstructPath`: push `u` and follow `parent[u]`
until the source is reached, with explicit fuel. -/
def reconWalk (parent : List Int) (srcI : Int) : Nat → Int → List Int → Except CppErr (List Int)
  | 0, _, _ => .error .noFuel
  | Nat.succ fuel, u, acc =>
    if u = srcI then .ok (acc ++ [u])
    else
      match vGet parent u with
      | .error e => .error e
      | .ok p => reconWalk parent srcI fuel p (acc ++ [u])

/-- `AStarSolver::reconstructPath`: clears the stored path, throws a logic error
when `shortestDistance` is still the sentinel, otherwise walks the parent
pointers from the destination and reverses.  The returned pair is the call's
outcome together with the object's state after the call. -/
def AStarSolver.reconstructPath (s : AStarSolver) : Except CppErr (List Int) × AStarSolver :=
  if s.shortestDistance = -1 then (.error .logicError, { s with path := ([] : List Int) })
  else
    match reconWalk s.parent s.source (s.parent.length + 1) s.destination [] with
    | .error e => (.error e, { s with path := ([] : List Int) })
    | .ok rev => (.ok rev.reverse, { s with path := rev.reverse })

/-! ### Specification-side notions: paths in the adjacency structure,
grid cells, and the states an object can reach through its public calls. -/

/-- The adjacency list of `u` (empty when `u` is not a valid index). -/
def adjAt (g : List (List (Int × Int))) (u : Int) : List (Int × Int) :=
  if 0 ≤ u then (g[u.toNat]?).getD [] else []

/-- `Walk g a steps b`: from vertex `a`, each step `(v, w)` moves along an edge of
weight `w` recorded in the current vertex's adjacency list, ending at `b`. -/
def Walk (g : List (List (Int × Int))) : Int → List (Int × Int) → Int → Prop
  | a, [], b => a = b
  | a, (v, w) :: rest, b => ((v, w) ∈ adjAt g a) ∧ Walk g v rest b

/-- Total edge weight of a walk. -/
def walkCost (steps : List (Int × Int)) : Int := (steps.map Prod.snd).sum

def decWalk (g : List (List (Int × Int))) :
    (a : Int) → (steps : List (Int × Int)) → (b : Int) → Decidable (Walk g a steps b)
  | a, [], b => inferInstanceAs (Decidable (a = b))
  | a, (v, w) :: rest, b =>
    have : Decidable (Walk g v rest b) := decWalk g v rest b
    inferInstanceAs (Decidable (((v, w) ∈ adjAt g a) ∧ Walk g v rest b))

instance (g : List (List (Int × Int))) (a : Int) (steps : List (Int × Int)) (b : Int) :
    Decidable (Walk g a steps b) := decWalk g a steps b

/-- The content of grid cell `(i, j)`, when it exists. -/
def cellAt (grid : List (List Int)) (i j : Nat) : Option Int :=
  match grid[i]? with
  | some row => row[j]?
  | none => none

/-- Number of occurrences of value `v` in one row. -/
def occCount (v : Int) : List Int → Nat
  | [] => 0
  | c :: cs => (if c = v then 1 else 0) + occCount v cs

/-- Number of occurrences of value `v` among all grid cells. -/
def countOcc : List (List Int) → Int → Nat
  | [], _ => 0
  | row :: rest, v => occCount v row + countOcc rest v

/-- States reachable from `s₀` through the solver's public member functions. -/
inductive Reaches : AStarSolver → AStarSolver → Prop where
  | init (s : AStarSolver) : Reaches s s
  | solveStep {s₀ s s' : AStarSolver} {b : Bool} :
      Reaches s₀ s → AStarSolver.solve s = .ok (b, s') → Reaches s₀ s'
  | getStep {s₀ s s' : AStarSolver} {r : Int} :
      Reaches s₀ s → AStarSolver.getShortestPath s = .ok (r, s') → Reaches s₀ s'
  | reconStep {s₀ s s' : AStarSolver} {r : Except CppErr (List Int)} :
      Reaches s₀ s → AStarSolver.reconstructPath s = (r, s') → Reaches s₀ s'


/-! ### Basic lemmas about the checked accessors and small helpers -/

theorem vGet_ok_iff {α : Type} {l : List α} {i : Int} {x : α} :
    vGet l i = .ok x ↔ 0 ≤ i ∧ l[i.toNat]? = some x := by
  unfold vGet
  split
  next h0 =>
    cases hg : l[i.toNat]? with
    | none => simp [hg]
    | some y => simp [hg, h0]
  next h0 =>
    constructor
    · intro h
      cases h
    · rintro ⟨h1, -⟩
      exact absurd h1 h0

theorem vGet_ok_of {α : Type} {l : List α} {i : Int} {x : α}
    (h0 : 0 ≤ i) (hg : l[i.toNat]? = some x) : vGet l i = .ok x :=
  vGet_ok_iff.2 ⟨h0, hg⟩

theorem vSet_ok_iff {α : Type} {l l' : List α} {i : Int} {x : α} :
    vSet l i x = .ok l' ↔ (0 ≤ i ∧ i.toNat < l.length) ∧ l' = l.set i.toNat x := by
  unfold vSet
  split
  · constructor
    · intro h
      cases h
      exact ⟨by assumption, rfl⟩
    · rintro ⟨-, rfl⟩
      rfl
  · constructor
    · intro h
      cases h
    · rintro ⟨h, -⟩
      exact absurd h (by assumption)

theorem vSet_ok_of {α : Type} {l : List α} {i : Int} {x : α}
    (h0 : 0 ≤ i) (hlt : i.toNat < l.length) :
    vSet l i x = .ok (l.set i.toNat x) :=
  vSet_ok_iff.2 ⟨⟨h0, hlt⟩, rfl⟩

theorem getElem?_some_lt_length {α : Type} {l : List α} {n : Nat} {a : α}
    (h : l[n]? = some a) : n < l.length :=
  (List.getElem?_eq_some.1 h).1

theorem length_pqInsert (x : Int × Int) (l : List (Int × Int)) :
    (pqInsert x l).length = l.length + 1 := by
  induction l with
  | nil => rfl
  | cons y ys ih =>
    unfold pqInsert
    split
    · rfl
    · simpa using ih

theorem mem_pqInsert {x e : Int × Int} {l : List (Int × Int)} :
    e ∈ pqInsert x l ↔ e = x ∨ e ∈ l := by
  induction l with
  | nil => simp [pqInsert]
  | cons y ys ih =>
    unfold pqInsert
    split
    · simp
    · simp only [List.mem_cons, ih]
      tauto

theorem walk_append {g : List (List (Int × Int))} {a b c w : Int}
    {steps : List (Int × Int)} (hw : Walk g a steps b) (he : (c, w) ∈ adjAt g b) :
    Walk g a (steps ++ [(c, w)]) c := by
  induction steps generalizing a with
  | nil =>
    cases hw
    exact ⟨he, rfl⟩
  | cons s rest ih =>
    obtain ⟨v, w'⟩ := s
    obtain ⟨h1, h2⟩ := hw
    exact ⟨h1, ih h2⟩

theorem walkCost_append (steps : List (Int × Int)) (c w : Int) :
    walkCost (steps ++ [(c, w)]) = walkCost steps + w := by
  simp [walkCost]

theorem walk_getLast {g : List (List (Int × Int))} {a b : Int} {steps : List (Int × Int)}
    (hw : Walk g a steps b) : (a :: steps.map Prod.fst).getLast? = some b := by
  induction steps generalizing a with
  | nil => cases hw; rfl
  | cons s rest ih =>
    obtain ⟨v, w⟩ := s
    obtain ⟨-, h2⟩ := hw
    simpa [List.getLast?_cons_cons] using ih h2

/-- Number of `true` entries of the `closed` vector. -/
def trueCount : List Bool → Nat
  | [] => 0
  | b :: bs => (if b then 1 else 0) + trueCount bs

theorem trueCount_set_true {l : List Bool} {u : Nat} (h : l[u]? = some false) :
    trueCount (l.set u true) = trueCount l + 1 := by
  induction l generalizing u with
  | nil => cases h
  | cons b bs ih =>
    cases u with
    | zero =>
      simp at h
      simp [h, trueCount]
      omega
    | succ u =>
      simp at h
      simp [trueCount, ih h]
      omega

theorem trueCount_le_length (l : List Bool) : trueCount l ≤ l.length := by
  induction l with
  | nil => simp [trueCount]
  | cons b bs ih =>
    simp [trueCount]
    split <;> omega

theorem trueCount_lt_length {l : List Bool} {u : Nat} (h : l[u]? = some false) :
    trueCount l < l.length := by
  induction l generalizing u with
  | nil => cases h
  | cons b bs ih =>
    cases u with
    | zero =>
      simp at h
      subst h
      have := trueCount_le_length bs
      simp [trueCount]
      omega
    | succ u =>
      simp at h
      have := ih h
      simp [trueCount]
      split <;> omega

theorem uw_set_true {g : List (List (Int × Int))} {closed : List Bool} {u : Nat}
    (hc : closed[u]? = some false) (hg : u < g.length) :
    uw g closed = uw g (closed.set u true) + ((g[u]?).getD []).length + 1 := by
  induction g generalizing closed u with
  | nil => simp at hg
  | cons adj gs ih =>
    cases closed with
    | nil => cases hc
    | cons c cs =>
      cases u with
      | zero =>
        simp at hc
        simp [hc, uw]
        omega
      | succ u =>
        simp only [List.getElem?_cons_succ] at hc
        simp only [List.length_cons] at hg
        have H := ih hc (by omega)
        simp only [uw, List.set, List.getElem?_cons_succ]
        omega

/-! ### The search invariant -/

/-- Well-formedness of the adjacency structure produced by the constructor:
`N` lists, every recorded edge target in range and every weight non-negative. -/
def GraphWF (g : List (List (Int × Int))) (N : Nat) : Prop :=
  g.length = N ∧ ∀ adj ∈ g, ∀ e ∈ adj, (0 ≤ e.1 ∧ e.1.toNat < N) ∧ 0 ≤ e.2

theorem adjAt_eq_of_getElem {g : List (List (Int × Int))} {u : Int}
    {adj : List (Int × Int)} (h0 : 0 ≤ u) (h : g[u.toNat]? = some adj) :
    adjAt g u = adj := by
  simp [adjAt, h0, h]

theorem GraphWF.adj_mem {g : List (List (Int × Int))} {N : Nat} (GW : GraphWF g N)
    {u : Int} {e : Int × Int} (he : e ∈ adjAt g u) :
    (0 ≤ e.1 ∧ e.1.toNat < N) ∧ 0 ≤ e.2 := by
  unfold adjAt at he
  split at he
  · cases hadj : g[u.toNat]? with
    | none => rw [hadj] at he; cases he
    | some adj =>
      rw [hadj] at he
      exact GW.2 adj (List.getElem?_mem hadj) e he
  · cases he

/-- The invariant maintained by the best-first search loop.  `srcI` is the source
vertex and `N` the vertex count; `pq`, `dist`, `parent`, `closed` are the loop's
working state. -/
structure SearchInv (g : List (List (Int × Int))) (srcI : Int) (N : Nat)
    (pq : List (Int × Int)) (dist parent : List Int) (closed : List Bool) : Prop where
  distLen : dist.length = N
  parLen : parent.length = N
  closedLen : closed.length = N
  srcRange : 0 ≤ srcI ∧ srcI.toNat < N
  pqRange : ∀ e ∈ pq, 0 ≤ e.2 ∧ e.2.toNat < N
  pqFin : ∀ e ∈ pq, ∀ d, dist[e.2.toNat]? = some d → d < inf
  distLe : ∀ (v : Nat) (d : Int), dist[v]? = some d → d ≤ inf
  distSound : ∀ (v : Nat) (d : Int), dist[v]? = some d → d < inf →
    0 ≤ d ∧ ∃ steps, Walk g srcI steps (v : Int) ∧ walkCost steps = d
  srcZero : dist[srcI.toNat]? = some 0
  srcPar : parent[srcI.toNat]? = some (-1)
  parSound : ∀ (v : Nat) (p : Int), parent[v]? = some p → p ≠ -1 →
    (0 ≤ p ∧ p.toNat < N) ∧ closed[p.toNat]? = some true ∧
    ∃ w dv dp, ((v : Int), w) ∈ adjAt g p ∧ 0 ≤ w ∧
      dist[v]? = some dv ∧ dist[p.toNat]? = some dp ∧ dv = dp + w ∧ dp < inf
  parNe : ∀ (v : Nat) (d : Int), v ≠ srcI.toNat → dist[v]? = some d → d < inf →
    parent[v]? ≠ some (-1)
  rankOk : ∃ rank : Nat → Nat,
    (∀ v : Nat, closed[v]? = some true → rank v < trueCount closed) ∧
    (∀ v : Nat, closed[v]? = some false → rank v = N) ∧
    trueCount closed ≤ N ∧
    (∀ (v : Nat) (p : Int), parent[v]? = some p → p ≠ -1 → rank p.toNat < rank v)

theorem dropClosed_spec {closed : List Bool} {N : Nat} (hN : closed.length = N) :
    ∀ pq : List (Int × Int), (∀ e ∈ pq, 0 ≤ e.2 ∧ e.2.toNat < N) →
    ∃ pq', dropClosed closed pq = .ok pq' ∧ (∀ e ∈ pq', e ∈ pq) ∧
      pq'.length ≤ pq.length ∧
      (∀ fs u rest, pq' = (fs, u) :: rest → closed[u.toNat]? = some false) := by
  intro pq
  induction pq with
  | nil =>
    intro _
    exact ⟨[], rfl, by simp, by simp, by intro fs u rest h; cases h⟩
  | cons e rest ih =>
    intro hrange
    obtain ⟨fs, n⟩ := e
    have hn := hrange (fs, n) (by simp)
    cases hc : closed[n.toNat]? with
    | none =>
      exfalso
      have hlt : n.toNat < closed.length := by omega
      rw [List.getElem?_eq_getElem hlt] at hc
      cases hc
    | some c =>
      have e1 : vGet closed n = .ok c := vGet_ok_of hn.1 hc
      cases c with
      | true =>
        obtain ⟨pq', h1, h2, h3, h4⟩ := ih (fun e he => hrange e (by simp [he]))
        refine ⟨pq', ?_, fun e he => by simp [h2 e he], by simp; omega, h4⟩
        simp [dropClosed, e1, h1]
      | false =>
        refine ⟨(fs, n) :: rest, by simp [dropClosed, e1], by simp, by simp, ?_⟩
        intro fs' u rest' h
        cases h
        exact hc

theorem relaxAll_spec {g : List (List (Int × Int))} {hvals : List Int} {srcI : Int} {N : Nat}
    (GW : GraphWF g N) (hh : hvals.length = N) (u : Int)
    (hu0 : 0 ≤ u) (huN : u.toNat < N) :
    ∀ (adj : List (Int × Int)) (dist parent : List Int) (pq : List (Int × Int))
      (closed : List Bool),
      SearchInv g srcI N pq dist parent closed →
      closed[u.toNat]? = some true →
      (∀ e ∈ adj, e ∈ adjAt g u) →
      (∀ du : Int, dist[u.toNat]? = some du → du < inf) →
      relaxAll hvals closed u adj dist parent pq = .error .undefined ∨
      ∃ dist' parent' pq',
        relaxAll hvals closed u adj dist parent pq = .ok (dist', parent', pq') ∧
        SearchInv g srcI N pq' dist' parent' closed ∧
        pq'.length ≤ pq.length + adj.length := by
  intro adj
  induction adj with
  | nil =>
    intro dist parent pq closed inv _ _ _
    exact Or.inr ⟨dist, parent, pq, rfl, inv, by simp⟩
  | cons e rest ih =>
    intro dist parent pq closed inv hcu hsub hdu
    obtain ⟨v, w⟩ := e
    have hvw : (v, w) ∈ adjAt g u := hsub (v, w) (by simp)
    obtain ⟨⟨hv0, hvN⟩, hw0⟩ := GW.adj_mem hvw
    have hclen : v.toNat < closed.length := by have := inv.closedLen; omega
    obtain ⟨cv, hcv⟩ : ∃ c, closed[v.toNat]? = some c :=
      ⟨_, List.getElem?_eq_getElem hclen⟩
    have e1 : vGet closed v = .ok cv := vGet_ok_of hv0 hcv
    cases cv with
    | true =>
      rcases ih dist parent pq closed inv hcu (fun e he => hsub e (by simp [he])) hdu with
        herr | ⟨dist', parent', pq', hrec, inv', hlen⟩
      · left
        simp only [relaxAll, e1]
        exact herr
      · right
        refine ⟨dist', parent', pq', ?_, inv', by simp; omega⟩
        simp only [relaxAll, e1]
        exact hrec
    | false =>
      have hulen : u.toNat < dist.length := by have := inv.distLen; omega
      obtain ⟨du, hdug⟩ : ∃ d, dist[u.toNat]? = some d :=
        ⟨_, List.getElem?_eq_getElem hulen⟩
      have e2 : vGet dist u = .ok du := vGet_ok_of hu0 hdug
      have hduInf : du < inf := hdu du hdug
      have hdu0 : 0 ≤ du := (inv.distSound u.toNat du hdug hduInf).1
      have hvlen : v.toNat < dist.length := by have := inv.distLen; omega
      obtain ⟨dv, hdvg⟩ : ∃ d, dist[v.toNat]? = some d :=
        ⟨_, List.getElem?_eq_getElem hvlen⟩
      have e3 : vGet dist v = .ok dv := vGet_ok_of hv0 hdvg
      by_cases hov : du + w < intMin ∨ inf < du + w
      · left
        have eA : intAdd du w = .error .undefined := by
          unfold intAdd
          rw [if_pos hov]
        simp only [relaxAll, e1, e2, eA]
      have eA : intAdd du w = .ok (du + w) := by
        unfold intAdd
        rw [if_neg hov]
      by_cases hrel : du + w < dv
      · have e4 : vSet dist v (du + w) = .ok (dist.set v.toNat (du + w)) :=
          vSet_ok_of hv0 hvlen
        have hplen : v.toNat < parent.length := by have := inv.parLen; omega
        have e5 : vSet parent v u = .ok (parent.set v.toNat u) := vSet_ok_of hv0 hplen
        have hhlen : v.toNat < hvals.length := by omega
        obtain ⟨hvv, hhg⟩ : ∃ d, hvals[v.toNat]? = some d :=
          ⟨_, List.getElem?_eq_getElem hhlen⟩
        have e6 : vGet hvals v = .ok hvv := vGet_ok_of hv0 hhg
        by_cases hov2 : du + w + hvv < intMin ∨ inf < du + w + hvv
        · left
          have eB : intAdd (du + w) hvv = .error .undefined := by
            unfold intAdd
            rw [if_pos hov2]
          simp only [relaxAll, e1, e2, eA, e3, if_pos hrel, e4, e5, e6, eB]
        have eB : intAdd (du + w) hvv = .ok (du + w + hvv) := by
          unfold intAdd
          rw [if_neg hov2]
        have hne_uv : u.toNat ≠ v.toNat := by
          intro h
          rw [h, hcv] at hcu
          cases hcu
        have hdvle : dv ≤ inf := inv.distLe v.toNat dv hdvg
        have hne_sv : srcI.toNat ≠ v.toNat := by
          intro h
          have h0 := inv.srcZero
          rw [h, hdvg] at h0
          have : dv = 0 := Option.some.inj h0
          omega
        have gd_v : (dist.set v.toNat (du + w))[v.toNat]? = some (du + w) :=
          List.getElem?_set_eq_of_lt _ hvlen
        have gd_ne : ∀ x : Nat, x ≠ v.toNat →
            (dist.set v.toNat (du + w))[x]? = dist[x]? := by
          intro x hx
          exact List.getElem?_set_ne (fun h => hx h.symm)
        have gp_v : (parent.set v.toNat u)[v.toNat]? = some u :=
          List.getElem?_set_eq_of_lt _ hplen
        have gp_ne : ∀ x : Nat, x ≠ v.toNat →
            (parent.set v.toNat u)[x]? = parent[x]? := by
          intro x hx
          exact List.getElem?_set_ne (fun h => hx h.symm)
        have inv' : SearchInv g srcI N (pqInsert (du + w + hvv, v) pq)
            (dist.set v.toNat (du + w)) (parent.set v.toNat u) closed := by
          constructor
          · simp [inv.distLen]
          · simp [inv.parLen]
          · exact inv.closedLen
          · exact inv.srcRange
          · intro e he
            rcases mem_pqInsert.1 he with h | h
            · subst h
              exact ⟨hv0, hvN⟩
            · exact inv.pqRange e h
          · intro e he d hd
            rcases mem_pqInsert.1 he with h | h
            · subst h
              rw [gd_v] at hd
              injection hd with hd'
              omega
            · by_cases hx : e.2.toNat = v.toNat
              · rw [hx, gd_v] at hd
                injection hd with hd'
                omega
              · rw [gd_ne _ hx] at hd
                exact inv.pqFin e h d hd
          · intro x d hd
            by_cases hx : x = v.toNat
            · rw [hx, gd_v] at hd
              injection hd with hd'
              omega
            · rw [gd_ne _ hx] at hd
              exact inv.distLe x d hd
          · intro x d hd hdinf
            by_cases hx : x = v.toNat
            · subst hx
              rw [gd_v] at hd
              injection hd with hd'
              subst hd'
              refine ⟨by omega, ?_⟩
              obtain ⟨-, steps, hwst, hcst⟩ := inv.distSound u.toNat du hdug hduInf
              have hwu : Walk g srcI steps u := by
                rwa [Int.toNat_of_nonneg hu0] at hwst
              refine ⟨steps ++ [(v, w)], ?_, ?_⟩
              · rw [Int.toNat_of_nonneg hv0]
                exact walk_append hwu hvw
              · rw [walkCost_append, hcst]
            · rw [gd_ne _ hx] at hd
              exact inv.distSound x d hd hdinf
          · rw [gd_ne _ hne_sv]
            exact inv.srcZero
          · rw [gp_ne _ hne_sv]
            exact inv.srcPar
          · intro x p hp hpne
            by_cases hx : x = v.toNat
            · subst hx
              rw [gp_v] at hp
              injection hp with hp'
              subst hp'
              refine ⟨⟨hu0, huN⟩, hcu, w, du + w, du, ?_, hw0, gd_v, ?_, rfl, hduInf⟩
              · rw [Int.toNat_of_nonneg hv0]
                exact hvw
              · rw [gd_ne _ hne_uv]
                exact hdug
            · rw [gp_ne _ hx] at hp
              obtain ⟨⟨hp0, hpN⟩, hpc, w', dv', dp', hedge, hw', hdv', hdp', heq, hdpinf⟩ :=
                inv.parSound x p hp hpne
              have hne_pv : p.toNat ≠ v.toNat := by
                intro h
                rw [h, hcv] at hpc
                cases hpc
              exact ⟨⟨hp0, hpN⟩, hpc, w', dv', dp', hedge, hw',
                by rw [gd_ne _ hx]; exact hdv', by rw [gd_ne _ hne_pv]; exact hdp', heq, hdpinf⟩
          · intro x d hxs hd hdinf
            by_cases hx : x = v.toNat
            · subst hx
              rw [gp_v]
              intro hcontra
              injection hcontra with h
              omega
            · rw [gp_ne _ hx]
              rw [gd_ne _ hx] at hd
              exact inv.parNe x d hxs hd hdinf
          · obtain ⟨rank, r1, r2, r3, r4⟩ := inv.rankOk
            refine ⟨rank, r1, r2, r3, ?_⟩
            intro x p hp hpne
            by_cases hx : x = v.toNat
            · subst hx
              rw [gp_v] at hp
              injection hp with hp'
              subst hp'
              have h1 := r1 u.toNat hcu
              have h2 := r2 v.toNat hcv
              omega
            · rw [gp_ne _ hx] at hp
              exact r4 x p hp hpne
        have hdu' : ∀ d : Int, (dist.set v.toNat (du + w))[u.toNat]? = some d → d < inf := by
          intro d hd
          rw [gd_ne _ hne_uv] at hd
          exact hdu d hd
        rcases ih (dist.set v.toNat (du + w)) (parent.set v.toNat u)
            (pqInsert (du + w + hvv, v) pq) closed inv' hcu
            (fun e he => hsub e (by simp [he])) hdu' with
          herr | ⟨dist', parent', pq', hrec, invF, hlen⟩
        · left
          simp only [relaxAll, e1, e2, eA, e3, if_pos hrel, e4, e5, e6, eB]
          exact herr
        · right
          refine ⟨dist', parent', pq', ?_, invF, ?_⟩
          · simp only [relaxAll, e1, e2, eA, e3, if_pos hrel, e4, e5, e6, eB]
            exact hrec
          · rw [length_pqInsert] at hlen
            simp
            omega
      · rcases ih dist parent pq closed inv hcu (fun e he => hsub e (by simp [he])) hdu with
          herr | ⟨dist', parent', pq', hrec, inv', hlen⟩
        · left
          simp only [relaxAll, e1, e2, eA, e3, if_neg hrel]
          exact herr
        · right
          refine ⟨dist', parent', pq', ?_, inv', by simp; omega⟩
          simp only [relaxAll, e1, e2, eA, e3, if_neg hrel]
          exact hrec

theorem loop_spec {g : List (List (Int × Int))} {hvals : List Int} {srcI dstI : Int} {N : Nat}
    (GW : GraphWF g N) (hh : hvals.length = N) :
    ∀ (fuel : Nat) (pq : List (Int × Int)) (dist parent : List Int) (closed : List Bool),
      SearchInv g srcI N pq dist parent closed →
      pq.length + uw g closed < fuel →
      loop g hvals dstI fuel pq dist parent closed = .error .undefined ∨
      ∃ b dist' parent',
        loop g hvals dstI fuel pq dist parent closed = .ok (b, dist', parent') ∧
        (∃ pqF closedF, SearchInv g srcI N pqF dist' parent' closedF) ∧
        (b = true → 0 ≤ dstI ∧ dstI.toNat < N ∧
          ∃ dd, dist'[dstI.toNat]? = some dd ∧ dd < inf) := by
  intro fuel
  induction fuel with
  | zero =>
    intro pq dist parent closed _ hm
    omega
  | succ fuel ihf =>
    intro pq dist parent closed inv hm
    obtain ⟨pq1, hdrop, hsubs, hlen1, hhead⟩ := dropClosed_spec inv.closedLen pq inv.pqRange
    cases pq1 with
    | nil =>
      refine Or.inr ⟨false, dist, parent, ?_, ⟨pq, closed, inv⟩, by simp⟩
      simp only [loop, hdrop]
    | cons hd rest =>
      obtain ⟨fs, u⟩ := hd
      have humem : (fs, u) ∈ pq := hsubs (fs, u) (by simp)
      have hu := inv.pqRange (fs, u) humem
      have hcuf : closed[u.toNat]? = some false := hhead fs u rest rfl
      by_cases hud : u = dstI
      · refine Or.inr ⟨true, dist, parent, ?_, ⟨pq, closed, inv⟩, ?_⟩
        · simp only [loop, hdrop, if_pos hud]
        · intro _
          have hdl : u.toNat < dist.length := by have := inv.distLen; omega
          obtain ⟨dd, hdd⟩ : ∃ d, dist[u.toNat]? = some d :=
            ⟨_, List.getElem?_eq_getElem hdl⟩
          subst hud
          exact ⟨hu.1, hu.2, dd, hdd, inv.pqFin (fs, u) humem dd hdd⟩
      · have hclen : u.toNat < closed.length := by have := inv.closedLen; omega
        have e1 : vSet closed u true = .ok (closed.set u.toNat true) :=
          vSet_ok_of hu.1 hclen
        have hglen : u.toNat < g.length := by have := GW.1; omega
        obtain ⟨adj, hadj⟩ : ∃ a, g[u.toNat]? = some a :=
          ⟨_, List.getElem?_eq_getElem hglen⟩
        have e2 : vGet g u = .ok adj := vGet_ok_of hu.1 hadj
        have hcu' : (closed.set u.toNat true)[u.toNat]? = some true :=
          List.getElem?_set_eq_of_lt _ hclen
        have hc_ne : ∀ x : Nat, x ≠ u.toNat →
            (closed.set u.toNat true)[x]? = closed[x]? := by
          intro x hx
          exact List.getElem?_set_ne (fun h => hx h.symm)
        have inv1 : SearchInv g srcI N rest dist parent (closed.set u.toNat true) := by
          constructor
          · exact inv.distLen
          · exact inv.parLen
          · simp [inv.closedLen]
          · exact inv.srcRange
          · exact fun e he => inv.pqRange e (hsubs e (by simp [he]))
          · exact fun e he => inv.pqFin e (hsubs e (by simp [he]))
          · exact inv.distLe
          · exact inv.distSound
          · exact inv.srcZero
          · exact inv.srcPar
          · intro x p hp hpne
            obtain ⟨⟨hp0, hpN⟩, hpc, w', dv', dp', hedge, hw', hdv', hdp', heq, hdpinf⟩ :=
              inv.parSound x p hp hpne
            refine ⟨⟨hp0, hpN⟩, ?_, w', dv', dp', hedge, hw', hdv', hdp', heq, hdpinf⟩
            by_cases hpu : p.toNat = u.toNat
            · rw [hpu]
              exact hcu'
            · rw [hc_ne _ hpu]
              exact hpc
          · exact inv.parNe
          · obtain ⟨rank, r1, r2, r3, r4⟩ := inv.rankOk
            have hcount : trueCount (closed.set u.toNat true) = trueCount closed + 1 :=
              trueCount_set_true hcuf
            have hcountlt : trueCount closed < N := by
              have := trueCount_lt_length hcuf
              have := inv.closedLen
              omega
            refine ⟨fun x => if x = u.toNat then trueCount closed else rank x, ?_, ?_, ?_, ?_⟩
            · intro x hx
              by_cases hxu : x = u.toNat
              · simp [hxu, hcount]
              · rw [hc_ne _ hxu] at hx
                have := r1 x hx
                simp [hxu]
                omega
            · intro x hx
              by_cases hxu : x = u.toNat
              · rw [hxu, hcu'] at hx
                cases hx
              · rw [hc_ne _ hxu] at hx
                simp [hxu, r2 x hx]
            · omega
            · intro x p hp hpne
              have hr := r4 x p hp hpne
              have hpc : closed[p.toNat]? = some true :=
                (inv.parSound x p hp hpne).2.1
              have hpu : p.toNat ≠ u.toNat := by
                intro h
                rw [h, hcuf] at hpc
                cases hpc
              have h1 := r1 p.toNat hpc
              by_cases hxu : x = u.toNat
              · simp [hxu, hpu]
                omega
              · simp [hxu, hpu]
                omega
        have hduInf : ∀ d : Int, dist[u.toNat]? = some d → d < inf :=
          fun d hd => inv.pqFin (fs, u) humem d hd
        have hsubadj : ∀ e ∈ adj, e ∈ adjAt g u := by
          rw [adjAt_eq_of_getElem hu.1 hadj]
          exact fun e he => he
        rcases relaxAll_spec GW hh u hu.1 hu.2 adj dist parent rest
            (closed.set u.toNat true) inv1 hcu' hsubadj hduInf with
          herr | ⟨dist', parent', pq', hrel, inv2, hlen2⟩
        · left
          simp only [loop, hdrop, if_neg hud, e1, e2, herr]
        have hm' : pq'.length + uw g (closed.set u.toNat true) < fuel := by
          have huw := uw_set_true hcuf hglen
          rw [hadj] at huw
          simp only [Option.getD_some] at huw
          have hpl : rest.length + 1 ≤ pq.length := by
            have := hlen1
            simp at this
            omega
          omega
        rcases ihf pq' dist' parent' (closed.set u.toNat true) inv2 hm' with
          herr2 | ⟨b, D, P, hloop, hfin, hbt⟩
        · left
          simp only [loop, hdrop, if_neg hud, e1, e2, hrel]
          exact herr2
        right
        refine ⟨b, D, P, ?_, hfin, hbt⟩
        simp only [loop, hdrop, if_neg hud, e1, e2, hrel]
        exact hloop

theorem trueCount_replicate_false (n : Nat) : trueCount (List.replicate n false) = 0 := by
  induction n with
  | zero => rfl
  | succ n ih => simp [List.replicate, trueCount, ih]

theorem solveCore_spec {g : List (List (Int × Int))} {hvals : List Int}
    {srcI dstI V : Int} {N : Nat}
    (GW : GraphWF g N) (hh : hvals.length = N) (hV : V.toNat = N)
    (hs0 : 0 ≤ srcI) (hsN : srcI.toNat < N) :
    solveCore g hvals srcI dstI V = .error .undefined ∨
    ∃ b dist parent,
      solveCore g hvals srcI dstI V = .ok (b, dist, parent) ∧
      (∃ pqF closedF, SearchInv g srcI N pqF dist parent closedF) ∧
      (b = true → 0 ≤ dstI ∧ dstI.toNat < N ∧
        ∃ dd, dist[dstI.toNat]? = some dd ∧ dd < inf) := by
  have hlen0 : (List.replicate V.toNat (inf : Int)).length = N := by simp [hV]
  have e1 : vSet (List.replicate V.toNat (inf : Int)) srcI 0 =
      .ok ((List.replicate V.toNat (inf : Int)).set srcI.toNat 0) :=
    vSet_ok_of hs0 (by omega)
  have gsrc : ((List.replicate V.toNat (inf : Int)).set srcI.toNat 0)[srcI.toNat]? = some 0 :=
    List.getElem?_set_eq_of_lt _ (by omega)
  have e2 : vGet ((List.replicate V.toNat (inf : Int)).set srcI.toNat 0) srcI = .ok 0 :=
    vGet_ok_of hs0 gsrc
  obtain ⟨hsv, hhg⟩ : ∃ d, hvals[srcI.toNat]? = some d :=
    ⟨_, List.getElem?_eq_getElem (by omega)⟩
  have e3 : vGet hvals srcI = .ok hsv := vGet_ok_of hs0 hhg
  have gne : ∀ x : Nat, x ≠ srcI.toNat →
      ((List.replicate V.toNat (inf : Int)).set srcI.toNat 0)[x]? =
        (List.replicate V.toNat (inf : Int))[x]? := by
    intro x hx
    exact List.getElem?_set_ne (fun h => hx h.symm)
  have inv0 : SearchInv g srcI N [(0 + hsv, srcI)]
      ((List.replicate V.toNat (inf : Int)).set srcI.toNat 0)
      (List.replicate V.toNat (-1 : Int)) (List.replicate V.toNat false) := by
    constructor
    · simp [hV]
    · simp [hV]
    · simp [hV]
    · exact ⟨hs0, hsN⟩
    · intro e he
      simp at he
      subst he
      exact ⟨hs0, hsN⟩
    · intro e he d hd
      simp at he
      subst he
      simp only [gsrc] at hd
      injection hd with hd'
      rw [← hd']
      decide
    · intro x d hd
      by_cases hx : x = srcI.toNat
      · rw [hx, gsrc] at hd
        injection hd with hd'
        rw [← hd']
        decide
      · rw [gne x hx, List.getElem?_replicate] at hd
        split at hd
        · injection hd with hd'
          omega
        · cases hd
    · intro x d hd hdinf
      by_cases hx : x = srcI.toNat
      · subst hx
        rw [gsrc] at hd
        injection hd with hd'
        subst hd'
        refine ⟨le_refl 0, [], ?_, rfl⟩
        show srcI = (srcI.toNat : Int)
        exact (Int.toNat_of_nonneg hs0).symm
      · rw [gne x hx, List.getElem?_replicate] at hd
        split at hd
        · injection hd with hd'
          omega
        · cases hd
    · exact gsrc
    · rw [List.getElem?_replicate]
      simp [hV, hsN]
    · intro x p hp hpne
      rw [List.getElem?_replicate] at hp
      split at hp
      · injection hp with hp'
        exact absurd hp'.symm hpne
      · cases hp
    · intro x d hx hd hdinf
      rw [gne x hx, List.getElem?_replicate] at hd
      split at hd
      · injection hd with hd'
        omega
      · cases hd
    · refine ⟨fun _ => N, ?_, ?_, ?_, ?_⟩
      · intro x hx
        rw [List.getElem?_replicate] at hx
        split at hx
        · cases hx
        · cases hx
      · intro x _
        rfl
      · rw [trueCount_replicate_false]
        omega
      · intro x p hp hpne
        rw [List.getElem?_replicate] at hp
        split at hp
        · injection hp with hp'
          exact absurd hp'.symm hpne
        · cases hp
  have hrepl : List.replicate V.toNat false = List.replicate g.length false := by
    rw [GW.1, hV]
  have hm0 : ([(0 + hsv, srcI)] : List (Int × Int)).length +
      uw g (List.replicate V.toNat false) < solveFuel g := by
    simp only [List.length_singleton, solveFuel, hrepl]
    omega
  rcases @loop_spec g hvals srcI dstI N GW hh (solveFuel g) [(0 + hsv, srcI)]
      ((List.replicate V.toNat (inf : Int)).set srcI.toNat 0)
      (List.replicate V.toNat (-1 : Int)) (List.replicate V.toNat false) inv0 hm0 with
    herr | ⟨b, dist', parent', hloop, hfin, hbt⟩
  · left
    simp only [solveCore, e1, e2, e3]
    have hpq : pqInsert (0 + hsv, srcI) [] = [(0 + hsv, srcI)] := rfl
    rw [hpq]
    exact herr
  right
  refine ⟨b, dist', parent', ?_, hfin, hbt⟩
  simp only [solveCore, e1, e2, e3]
  have hpq : pqInsert (0 + hsv, srcI) [] = [(0 + hsv, srcI)] := rfl
  rw [hpq]
  exact hloop

theorem SearchInv.rankBound {g : List (List (Int × Int))} {srcI : Int} {N : Nat}
    {pq : List (Int × Int)} {dist parent : List Int} {closed : List Bool}
    (inv : SearchInv g srcI N pq dist parent closed) :
    ∃ rank : Nat → Nat, (∀ v : Nat, v < N → rank v ≤ N) ∧
      (∀ (v : Nat) (p : Int), parent[v]? = some p → p ≠ -1 → rank p.toNat < rank v) := by
  obtain ⟨rank, r1, r2, r3, r4⟩ := inv.rankOk
  refine ⟨rank, ?_, r4⟩
  intro v hv
  have hlen : v < closed.length := by have := inv.closedLen; omega
  obtain ⟨c, hc⟩ : ∃ c, closed[v]? = some c := ⟨_, List.getElem?_eq_getElem hlen⟩
  cases c with
  | true =>
    have := r1 v hc
    omega
  | false =>
    rw [r2 v hc]

theorem reconWalk_spec {g : List (List (Int × Int))} {srcI : Int} {N : Nat}
    {dist parent : List Int}
    (hdl : dist.length = N) (hpl : parent.length = N)
    (hs0 : 0 ≤ srcI)
    (hsz : dist[srcI.toNat]? = some 0)
    (hps : ∀ (v : Nat) (p : Int), parent[v]? = some p → p ≠ -1 →
      (0 ≤ p ∧ p.toNat < N) ∧
      ∃ w dv dp, ((v : Int), w) ∈ adjAt g p ∧ 0 ≤ w ∧
        dist[v]? = some dv ∧ dist[p.toNat]? = some dp ∧ dv = dp + w ∧ dp < inf)
    (hpn : ∀ (v : Nat) (d : Int), v ≠ srcI.toNat → dist[v]? = some d → d < inf →
      parent[v]? ≠ some (-1))
    (rank : Nat → Nat)
    (hrd : ∀ (v : Nat) (p : Int), parent[v]? = some p → p ≠ -1 → rank p.toNat < rank v) :
    ∀ (fuel : Nat) (u : Int) (acc : List Int), 0 ≤ u → u.toNat < N →
      (∀ d : Int, dist[u.toNat]? = some d → d < inf) →
      rank u.toNat < fuel →
      ∃ steps du, dist[u.toNat]? = some du ∧
        reconWalk parent srcI fuel u acc =
          .ok (acc ++ (srcI :: steps.map Prod.fst).reverse) ∧
        Walk g srcI steps u ∧ walkCost steps = du := by
  intro fuel
  induction fuel with
  | zero =>
    intro u acc _ _ _ h
    omega
  | succ fuel ihf =>
    intro u acc hu0 huN hufin hr
    by_cases hus : u = srcI
    · subst hus
      refine ⟨[], 0, hsz, ?_, rfl, rfl⟩
      simp [reconWalk]
    · have hune : u.toNat ≠ srcI.toNat := by
        intro h
        apply hus
        omega
      obtain ⟨du, hdug⟩ : ∃ d, dist[u.toNat]? = some d :=
        ⟨_, List.getElem?_eq_getElem (by omega)⟩
      have hduInf := hufin du hdug
      have hpnot := hpn u.toNat du hune hdug hduInf
      obtain ⟨p, hp⟩ : ∃ p, parent[u.toNat]? = some p :=
        ⟨_, List.getElem?_eq_getElem (by omega)⟩
      have hpne : p ≠ -1 := by
        intro h
        exact hpnot (h ▸ hp)
      obtain ⟨⟨hp0, hpN⟩, w, dv, dp, hedge, hw0, hdv, hdp, heq, hdpinf⟩ :=
        hps u.toNat p hp hpne
      have hdveq : du = dv := by
        rw [hdug] at hdv
        exact Option.some.inj hdv
      have hrplt : rank p.toNat < rank u.toNat := hrd u.toNat p hp hpne
      have e1 : vGet parent u = .ok p := vGet_ok_of hu0 hp
      obtain ⟨steps', dp', hdp', hres, hwp, hcp⟩ :=
        ihf p (acc ++ [u]) hp0 hpN
          (fun d hd => by
            rw [hdp] at hd
            have := Option.some.inj hd
            omega)
          (by omega)
      have hdpeq : dp = dp' := by
        rw [hdp] at hdp'
        exact Option.some.inj hdp'
      refine ⟨steps' ++ [(u, w)], du, hdug, ?_, ?_, ?_⟩
      · simp only [reconWalk, if_neg hus, e1]
        rw [hres]
        simp [List.reverse_cons, List.append_assoc]
      · refine walk_append hwp ?_
        rwa [Int.toNat_of_nonneg hu0] at hedge
      · rw [walkCost_append, hcp]
        omega

/-! ### Constructor lemmas -/

theorem addEdgeBoth_ok {g g2 : List (List (Int × Int))} {V u v w : Int}
    (h : addEdgeBoth g V u v w = .ok g2) :
    0 ≤ u ∧ u < V ∧ 0 ≤ v ∧ v < V ∧ 0 ≤ w ∧ g2.length = g.length ∧
    ∀ adj ∈ g2, ∀ e ∈ adj, (∃ adj0 ∈ g, e ∈ adj0) ∨ e = (v, w) ∨ e = (u, w) := by
  unfold addEdgeBoth at h
  split at h
  · cases h
  next hrange =>
    split at h
    · cases h
    next hw =>
      cases hU : vGet g u with
      | error e => simp only [hU] at h; cases h
      | ok adjU =>
        simp only [hU] at h
        cases hS1 : vSet g u (adjU ++ [(v, w)]) with
        | error e => simp only [hS1] at h; cases h
        | ok g1 =>
          simp only [hS1] at h
          cases hV1 : vGet g1 v with
          | error e => simp only [hV1] at h; cases h
          | ok adjV =>
            simp only [hV1] at h
            cases hS2 : vSet g1 v (adjV ++ [(u, w)]) with
            | error e => simp only [hS2] at h; cases h
            | ok g2' =>
              simp only [hS2] at h
              injection h with h
              subst h
              push_neg at hrange
              obtain ⟨hu0, huV, hv0, hvV⟩ := hrange
              obtain ⟨-, hg1⟩ := vSet_ok_iff.1 hS1
              obtain ⟨⟨-, hvlen⟩, hg2⟩ := vSet_ok_iff.1 hS2
              obtain ⟨-, hadjU⟩ := vGet_ok_iff.1 hU
              obtain ⟨-, hadjV⟩ := vGet_ok_iff.1 hV1
              subst hg1
              subst hg2
              refine ⟨hu0, huV, hv0, hvV, by omega, by simp, ?_⟩
              intro adj hadj e he
              rcases List.mem_or_eq_of_mem_set hadj with hadj1 | rfl
              · rcases List.mem_or_eq_of_mem_set hadj1 with hadj0 | rfl
                · exact Or.inl ⟨adj, hadj0, he⟩
                · rcases List.mem_append.1 he with h1 | h1
                  · exact Or.inl ⟨adjU, List.getElem?_mem hadjU, h1⟩
                  · simp at h1
                    exact Or.inr (Or.inl h1)
              · rcases List.mem_append.1 he with h1 | h1
                · have hadjV' : adjV ∈ g.set u.toNat (adjU ++ [(v, w)]) :=
                    List.getElem?_mem hadjV
                  rcases List.mem_or_eq_of_mem_set hadjV' with hadj0 | rfl
                  · exact Or.inl ⟨adjV, hadj0, h1⟩
                  · rcases List.mem_append.1 h1 with h2 | h2
                    · exact Or.inl ⟨adjU, List.getElem?_mem hadjU, h2⟩
                    · simp at h2
                      exact Or.inr (Or.inl h2)
                · simp at h1
                  exact Or.inr (Or.inr h1)

theorem buildGraph_wf {V : Int} {N : Nat} (hV : V.toNat = N) :
    ∀ (edges : List (Int × Int × Int)) (g g' : List (List (Int × Int))),
      buildGraph V g edges = .ok g' →
      (g.length = N ∧ ∀ adj ∈ g, ∀ e ∈ adj, (0 ≤ e.1 ∧ e.1.toNat < N) ∧ 0 ≤ e.2) →
      GraphWF g' N := by
  intro edges
  induction edges with
  | nil =>
    intro g g' h hwf
    injection h with h
    subst h
    exact hwf
  | cons e rest ih =>
    intro g g' h hwf
    obtain ⟨u, v, w⟩ := e
    unfold buildGraph at h
    cases hA : addEdgeBoth g V u v w with
    | error e => simp only [hA] at h; cases h
    | ok g1 =>
      simp only [hA] at h
      obtain ⟨hu0, huV, hv0, hvV, hw0, hlen, hmem⟩ := addEdgeBoth_ok hA
      refine ih g1 g' h ⟨by omega, ?_⟩
      intro adj hadj e he
      rcases hmem adj hadj e he with ⟨adj0, hadj0, he0⟩ | rfl | rfl
      · exact hwf.2 adj0 hadj0 e he0
      · exact ⟨⟨hv0, by omega⟩, hw0⟩
      · exact ⟨⟨hu0, by omega⟩, hw0⟩

theorem initHeuRow_length {row : List Int} {i x y : Nat} :
    ∀ (r j : Nat) (hv hv' : List Int), initHeuRow hv row i x y j r = .ok hv' →
      hv'.length = hv.length := by
  intro r
  induction r with
  | zero =>
    intro j hv hv' h
    injection h with h
    subst h
    rfl
  | succ r ih =>
    intro j hv hv' h
    unfold initHeuRow at h
    cases hj : row[j]? with
    | none => simp only [hj] at h; cases h
    | some u =>
      simp only [hj] at h
      split at h
      · exact ih (j + 1) hv hv' h
      · cases hS : vSet hv u (getManhattenDistance i j x y) with
        | error e => simp only [hS] at h; cases h
        | ok hv1 =>
          simp only [hS] at h
          obtain ⟨-, hset⟩ := vSet_ok_iff.1 hS
          have := ih (j + 1) hv1 hv' h
          subst hset
          simp at this
          omega

theorem initHeuRows_length {w x y : Nat} :
    ∀ (rows : List (List Int)) (i : Nat) (hv hv' : List Int),
      initHeuRows w x y i hv rows = .ok hv' → hv'.length = hv.length := by
  intro rows
  induction rows with
  | nil =>
    intro i hv hv' h
    injection h with h
    subst h
    rfl
  | cons row rest ih =>
    intro i hv hv' h
    unfold initHeuRows at h
    cases hR : initHeuRow hv row i x y 0 w with
    | error e => simp only [hR] at h; cases h
    | ok hv1 =>
      simp only [hR] at h
      have h1 := initHeuRow_length w 0 hv hv1 hR
      have h2 := ih (i + 1) hv1 hv' h
      omega

theorem initHeuristicValues_length {hv hv' : List Int} {grid : List (List Int)} {dst : Int}
    (h : initHeuristicValues hv grid dst = .ok hv') : hv'.length = hv.length := by
  unfold initHeuristicValues at h
  cases hC : getCoordinates grid dst with
  | error e => simp only [hC] at h; cases h
  | ok xy =>
    simp only [hC] at h
    obtain ⟨x, y⟩ := xy
    cases grid with
    | nil =>
      injection h with h
      subst h
      rfl
    | cons r0 rest => exact initHeuRows_length _ _ _ _ h

theorem mkAStarSolver_ok {grid : List (List Int)} {edges : List (Int × Int × Int)}
    {src dst V : Int} {s : AStarSolver}
    (h : mkAStarSolver grid edges src dst V = .ok s) :
    0 < V ∧ s.source = src ∧ s.destination = dst ∧ s.V = V ∧
    s.shortestDistance = -1 ∧ s.parent = [] ∧ s.path = [] ∧
    GraphWF s.graph V.toNat ∧ s.heuristicValues.length = V.toNat := by
  unfold mkAStarSolver at h
  split at h
  · cases h
  next hV0 =>
    cases hB : buildGraph V (List.replicate V.toNat []) edges with
    | error e => simp only [hB] at h; cases h
    | ok g =>
      simp only [hB] at h
      cases hI : initHeuristicValues (List.replicate V.toNat 0) grid dst with
      | error e => simp only [hI] at h; cases h
      | ok hv =>
        simp only [hI] at h
        injection h with h
        subst h
        refine ⟨by omega, rfl, rfl, rfl, rfl, rfl, rfl, ?_, ?_⟩
        · exact buildGraph_wf rfl edges _ g hB ⟨by simp, by simp⟩
        · have := initHeuristicValues_length hI
          simpa using this

/-! ### Solver-level lemmas -/

/-- The fields the constructor fixes once and `solve`, `getShortestPath` and
`reconstructPath` never modify. -/
def CoreEq (s t : AStarSolver) : Prop :=
  s.graph = t.graph ∧ s.heuristicValues = t.heuristicValues ∧
  s.source = t.source ∧ s.destination = t.destination ∧ s.V = t.V

/-- A successful solve is recorded in the object: the stored `parent` array and
`shortestDistance` are exactly what the search body produces on the object's
own immutable core. -/
def RecordedOK (s : AStarSolver) : Prop :=
  ∃ dist, solveCore s.graph s.heuristicValues s.source s.destination s.V =
      .ok (true, dist, s.parent) ∧
    vGet dist s.destination = .ok s.shortestDistance

theorem solve_fields {s s' : AStarSolver} {b : Bool}
    (h : AStarSolver.solve s = .ok (b, s')) :
    s'.graph = s.graph ∧ s'.heuristicValues = s.heuristicValues ∧ s'.source = s.source ∧
    s'.destination = s.destination ∧ s'.V = s.V ∧ s'.path = s.path ∧
    ∃ dist, solveCore s.graph s.heuristicValues s.source s.destination s.V =
        .ok (b, dist, s'.parent) ∧
      (b = true → vGet dist s.destination = .ok s'.shortestDistance) ∧
      (b = false → s'.shortestDistance = s.shortestDistance) := by
  unfold AStarSolver.solve at h
  cases hc : solveCore s.graph s.heuristicValues s.source s.destination s.V with
  | error e =>
    simp only [hc] at h
    cases h
  | ok res =>
    obtain ⟨b', dist, par⟩ := res
    cases b' with
    | false =>
      simp only [hc] at h
      injection h with h
      injection h with hb hs
      subst hb
      subst hs
      refine ⟨rfl, rfl, rfl, rfl, rfl, rfl, dist, ?_, ?_, ?_⟩
      · rfl
      · intro hx
        cases hx
      · intro _
        rfl
    | true =>
      simp only [hc] at h
      cases hg : vGet dist s.destination with
      | error e =>
        simp only [hg] at h
        cases h
      | ok d =>
        simp only [hg] at h
        injection h with h
        injection h with hb hs
        subst hb
        subst hs
        refine ⟨rfl, rfl, rfl, rfl, rfl, rfl, dist, ?_, ?_, ?_⟩
        · rfl
        · intro _
          exact hg
        · intro hx
          cases hx

theorem gsp_fields {s s' : AStarSolver} {r : Int}
    (h : AStarSolver.getShortestPath s = .ok (r, s')) :
    (s.shortestDistance ≠ -1 ∧ s' = s ∧ r = s.shortestDistance) ∨
    (s.shortestDistance = -1 ∧ ∃ b, AStarSolver.solve s = .ok (b, s') ∧
      r = s'.shortestDistance) := by
  unfold AStarSolver.getShortestPath at h
  split at h
  next hsd =>
    cases hc : AStarSolver.solve s with
    | error e =>
      simp only [hc] at h
      cases h
    | ok res =>
      obtain ⟨b, s₁⟩ := res
      simp only [hc] at h
      injection h with h
      injection h with h1 h2
      subst h2
      refine Or.inr ⟨hsd, b, ?_, ?_⟩
      · rfl
      · exact h1.symm
  next hsd =>
    injection h with h
    injection h with h1 h2
    subst h2
    exact Or.inl ⟨hsd, rfl, h1.symm⟩

theorem recon_fields {s s' : AStarSolver} {r : Except CppErr (List Int)}
    (h : AStarSolver.reconstructPath s = (r, s')) :
    s'.graph = s.graph ∧ s'.heuristicValues = s.heuristicValues ∧ s'.source = s.source ∧
    s'.destination = s.destination ∧ s'.V = s.V ∧ s'.parent = s.parent ∧
    s'.shortestDistance = s.shortestDistance := by
  unfold AStarSolver.reconstructPath at h
  split at h
  · injection h with h1 h2
    subst h2
    exact ⟨rfl, rfl, rfl, rfl, rfl, rfl, rfl⟩
  · cases hw : reconWalk s.parent s.source (s.parent.length + 1) s.destination [] with
    | error e =>
      simp only [hw] at h
      injection h with h1 h2
      subst h2
      exact ⟨rfl, rfl, rfl, rfl, rfl, rfl, rfl⟩
    | ok rev =>
      simp only [hw] at h
      injection h with h1 h2
      subst h2
      exact ⟨rfl, rfl, rfl, rfl, rfl, rfl, rfl⟩

theorem reaches_coreEq {s₀ s : AStarSolver} (h : Reaches s₀ s) : CoreEq s s₀ := by
  induction h with
  | init => exact ⟨rfl, rfl, rfl, rfl, rfl⟩
  | solveStep hr hstep ih =>
    obtain ⟨h1, h2, h3, h4, h5, -, -⟩ := solve_fields hstep
    exact ⟨h1.trans ih.1, h2.trans ih.2.1, h3.trans ih.2.2.1,
      h4.trans ih.2.2.2.1, h5.trans ih.2.2.2.2⟩
  | getStep hr hstep ih =>
    rcases gsp_fields hstep with ⟨-, rfl, -⟩ | ⟨-, b, hs, -⟩
    · exact ih
    · obtain ⟨h1, h2, h3, h4, h5, -, -⟩ := solve_fields hs
      exact ⟨h1.trans ih.1, h2.trans ih.2.1, h3.trans ih.2.2.1,
        h4.trans ih.2.2.2.1, h5.trans ih.2.2.2.2⟩
  | reconStep hr hstep ih =>
    obtain ⟨h1, h2, h3, h4, h5, -, -⟩ := recon_fields hstep
    exact ⟨h1.trans ih.1, h2.trans ih.2.1, h3.trans ih.2.2.1,
      h4.trans ih.2.2.2.1, h5.trans ih.2.2.2.2⟩

theorem sd_after_solve {s s' : AStarSolver} {b : Bool} {d₀ : Int}
    (hstep : AStarSolver.solve s = .ok (b, s'))
    (ih : s.shortestDistance = d₀ ∨ RecordedOK s) :
    s'.shortestDistance = d₀ ∨ RecordedOK s' := by
  obtain ⟨h1, h2, h3, h4, h5, -, dist, hcore, htrue, hfalse⟩ := solve_fields hstep
  cases b with
  | false =>
    rcases ih with hl | ⟨dist0, hc0, -⟩
    · exact Or.inl ((hfalse rfl).trans hl)
    · rw [hcore] at hc0
      injection hc0 with hx
      injection hx with hb hrest
      cases hb
  | true =>
    refine Or.inr ⟨dist, ?_, ?_⟩
    · rw [h1, h2, h3, h4, h5]
      exact hcore
    · rw [h4]
      exact htrue rfl

theorem reaches_sd {s₀ s : AStarSolver} (h : Reaches s₀ s) :
    s.shortestDistance = s₀.shortestDistance ∨ RecordedOK s := by
  induction h with
  | init => exact Or.inl rfl
  | solveStep hr hstep ih => exact sd_after_solve hstep ih
  | getStep hr hstep ih =>
    rcases gsp_fields hstep with ⟨-, rfl, -⟩ | ⟨-, b, hs, -⟩
    · exact ih
    · exact sd_after_solve hs ih
  | reconStep hr hstep ih =>
    obtain ⟨h1, h2, h3, h4, h5, h6, h7⟩ := recon_fields hstep
    rcases ih with hl | ⟨dist0, hc0, hv0⟩
    · exact Or.inl (h7.trans hl)
    · refine Or.inr ⟨dist0, ?_, ?_⟩
      · rw [h1, h2, h3, h4, h5, h6]
        exact hc0
      · rw [h4, h7]
        exact hv0

theorem solveCore_ok_src {g : List (List (Int × Int))} {hvals : List Int}
    {srcI dstI V : Int} {res : Bool × List Int × List Int}
    (h : solveCore g hvals srcI dstI V = .ok res) :
    0 ≤ srcI ∧ srcI.toNat < V.toNat := by
  unfold solveCore at h
  cases hS : vSet (List.replicate V.toNat inf) srcI 0 with
  | error e =>
    simp only [hS] at h
    cases h
  | ok dist =>
    obtain ⟨⟨h0, hlt⟩, -⟩ := vSet_ok_iff.1 hS
    simp at hlt
    refine ⟨h0, ?_⟩
    omega

theorem solve_spec {s : AStarSolver} {N : Nat}
    (hGW : GraphWF s.graph N) (hh : s.heuristicValues.length = N) (hV : s.V.toNat = N)
    (hs0 : 0 ≤ s.source) (hsN : s.source.toNat < N) :
    AStarSolver.solve s = .error .undefined ∨
    ∃ (b : Bool) (s' : AStarSolver),
      AStarSolver.solve s = .ok (b, s') ∧
      (b = true → 0 ≤ s'.shortestDistance ∧ RecordedOK s' ∧ CoreEq s' s ∧
        ∃ steps, Walk s.graph s.source steps s.destination ∧
          walkCost steps = s'.shortestDistance) ∧
      (b = false → s'.shortestDistance = s.shortestDistance) := by
  rcases @solveCore_spec s.graph s.heuristicValues s.source s.destination s.V N hGW hh
      hV hs0 hsN with herr | ⟨b, dist, par, hcore, hfin, hbt⟩
  · left
    simp only [AStarSolver.solve, herr]
  right
  cases b with
  | false =>
    refine ⟨false, { s with parent := par }, ?_, ?_, ?_⟩
    · simp only [AStarSolver.solve, hcore]
    · intro hx
      cases hx
    · intro _
      rfl
  | true =>
    obtain ⟨hd0, hdN, dd, hdd, hddinf⟩ := hbt rfl
    have hvg : vGet dist s.destination = .ok dd := vGet_ok_of hd0 hdd
    obtain ⟨pqF, closedF, inv⟩ := hfin
    obtain ⟨h0dd, steps, hwalk, hcost⟩ := inv.distSound s.destination.toNat dd hdd hddinf
    refine ⟨true, { s with parent := par, shortestDistance := dd }, ?_, ?_, ?_⟩
    · simp only [AStarSolver.solve, hcore, hvg]
    · intro _
      refine ⟨h0dd, ⟨dist, ?_, ?_⟩, ⟨rfl, rfl, rfl, rfl, rfl⟩, steps, ?_, hcost⟩
      · exact hcore
      · exact hvg
      · rwa [Int.toNat_of_nonneg hd0] at hwalk
    · intro hx
      cases hx

theorem reconstruct_of_recorded {s : AStarSolver} {N : Nat}
    (hGW : GraphWF s.graph N) (hh : s.heuristicValues.length = N) (hV : s.V.toNat = N)
    (hrec : RecordedOK s) :
    0 ≤ s.shortestDistance ∧
    ∃ steps p,
      AStarSolver.reconstructPath s = (.ok p, { s with path := p }) ∧
      p = s.source :: steps.map Prod.fst ∧
      p.head? = some s.source ∧ p.getLast? = some s.destination ∧
      Walk s.graph s.source steps s.destination ∧
      walkCost steps = s.shortestDistance := by
  obtain ⟨dist, hcore, hvg⟩ := hrec
  obtain ⟨hs0, hsN'⟩ := solveCore_ok_src hcore
  have hsN : s.source.toNat < N := by omega
  rcases @solveCore_spec s.graph s.heuristicValues s.source s.destination s.V N hGW hh
      hV hs0 hsN with herr | ⟨b2, dist2, par2, hcore2, hfin, hbt⟩
  · rw [hcore] at herr
    cases herr
  rw [hcore] at hcore2
  injection hcore2 with hx
  injection hx with hb hx
  injection hx with hdist hpar
  subst hb
  subst hdist
  subst hpar
  obtain ⟨hd0, hdN, dd, hdd, hddinf⟩ := hbt rfl
  obtain ⟨-, hsd⟩ := vGet_ok_iff.1 hvg
  have hsddd : s.shortestDistance = dd := by
    rw [hdd] at hsd
    exact (Option.some.inj hsd).symm
  have hsdinf : s.shortestDistance < inf := by omega
  obtain ⟨pqF, closedF, inv⟩ := hfin
  have hsd0 : 0 ≤ s.shortestDistance :=
    (inv.distSound s.destination.toNat s.shortestDistance hsd hsdinf).1
  obtain ⟨rank, hrb, hrd⟩ := inv.rankBound
  obtain ⟨steps, du, hdu, hres, hwalk, hcost⟩ :=
    reconWalk_spec inv.distLen inv.parLen hs0 inv.srcZero
      (fun v p hp hpne => ⟨(inv.parSound v p hp hpne).1, (inv.parSound v p hp hpne).2.2⟩)
      inv.parNe rank hrd (s.parent.length + 1) s.destination [] hd0 hdN
      (fun d hd => by
        rw [hsd] at hd
        have := Option.some.inj hd
        omega)
      (by
        have h1 := hrb s.destination.toNat hdN
        have h2 := inv.parLen
        omega)
  have hdusd : du = s.shortestDistance := by
    rw [hsd] at hdu
    exact (Option.some.inj hdu).symm
  have hsdne : ¬(s.shortestDistance = -1) := by omega
  have hrev : (([] : List Int) ++ (s.source :: steps.map Prod.fst).reverse).reverse =
      s.source :: steps.map Prod.fst := by simp
  refine ⟨hsd0, steps, s.source :: steps.map Prod.fst, ?_, rfl, rfl, ?_, ?_, ?_⟩
  · simp only [AStarSolver.reconstructPath, if_neg hsdne, hres, hrev]
  · have := walk_getLast hwalk
    exact this
  · exact hwalk
  · omega

/-! ### Claim theorems -/

/-- C7: for every solver state, calling `getShortestPath()` twice in succession
with no other mutating operation in between yields the same value both times,
and the second call leaves the state unchanged. -/
theorem astar_getShortestPath_idempotent {s s₁ : AStarSolver} {r : Int}
    (h : AStarSolver.getShortestPath s = .ok (r, s₁)) :
    AStarSolver.getShortestPath s₁ = .ok (r, s₁) := by
  rcases gsp_fields h with ⟨hne, heq, hr⟩ | ⟨hsd, b, hsolve, hr⟩
  · subst heq
    simp only [AStarSolver.getShortestPath, if_neg hne]
    rw [hr]
  · obtain ⟨h1, h2, h3, h4, h5, -, dist, hcore, htrue, hfalse⟩ := solve_fields hsolve
    by_cases hne : s₁.shortestDistance = -1
    · have hcore1 : solveCore s₁.graph s₁.heuristicValues s₁.source s₁.destination s₁.V =
          .ok (b, dist, s₁.parent) := by
        rw [h1, h2, h3, h4, h5]
        exact hcore
      cases b with
      | false =>
        simp only [AStarSolver.getShortestPath, if_pos hne, AStarSolver.solve, hcore1]
        rw [hr]
      | true =>
        have hvg1 : vGet dist s₁.destination = .ok s₁.shortestDistance := by
          rw [h4]
          exact htrue rfl
        simp only [AStarSolver.getShortestPath, if_pos hne, AStarSolver.solve, hcore1, hvg1]
        rw [hr]
    · simp only [AStarSolver.getShortestPath, if_neg hne]
      rw [hr]

/-- Witness for C7 at a concrete one-vertex solver whose first call solves. -/
theorem astar_getShortestPath_idempotent_witness :
    AStarSolver.getShortestPath
        ⟨[[]], [0], 0, 0, 1, -1, [], []⟩ =
      .ok (0, ⟨[[]], [0], 0, 0, 1, 0, [-1], []⟩) ∧
    AStarSolver.getShortestPath ⟨[[]], [0], 0, 0, 1, 0, [-1], []⟩ =
      .ok (0, ⟨[[]], [0], 0, 0, 1, 0, [-1], []⟩) := by
  have h1 : AStarSolver.getShortestPath ⟨[[]], [0], 0, 0, 1, -1, [], []⟩ =
      .ok (0, ⟨[[]], [0], 0, 0, 1, 0, [-1], []⟩) := by decide
  exact ⟨h1, astar_getShortestPath_idempotent h1⟩

/-- C8: on the concrete graph with vertices `{0,1,2}`, edges `(0,1,5)` and
`(1,2,3)`, a grid holding each vertex once, source `0` and destination `2`,
`getShortestPath()` returns `8` and `reconstructPath()` returns `[0, 1, 2]`. -/
theorem astar_concrete_scenario :
    ∃ s s₁ s₂,
      mkAStarSolver [[0, 1, 2]] [(0, 1, 5), (1, 2, 3)] 0 2 3 = .ok s ∧
      AStarSolver.getShortestPath s = .ok (8, s₁) ∧
      AStarSolver.reconstructPath s₁ = (.ok [0, 1, 2], s₂) := by
  refine ⟨⟨[[(1, 5)], [(0, 5), (2, 3)], [(1, 3)]], [2, 1, 0], 0, 2, 3, -1, [], []⟩,
    ⟨[[(1, 5)], [(0, 5), (2, 3)], [(1, 3)]], [2, 1, 0], 0, 2, 3, 8, [-1, 0, 1], []⟩,
    ⟨[[(1, 5)], [(0, 5), (2, 3)], [(1, 3)]], [2, 1, 0], 0, 2, 3, 8, [-1, 0, 1], [0, 1, 2]⟩,
    ?_, ?_, ?_⟩
  · decide
  · decide
  · decide

/-- C9: the heuristic-table initialization indexes the table directly with each
non-sentinel grid cell value, so a grid cell holding `V` (here `1` with
`V = 1`) or `-2` drives the construction out of bounds. -/
theorem astar_heuristic_init_out_of_bounds :
    mkAStarSolver [[0, 1]] [] 0 0 1 = .error .undefined ∧
    mkAStarSolver [[0, -2]] [] 0 0 1 = .error .undefined := by
  constructor
  · decide
  · decide

/-- C10: `reconstructPath()` clears the stored path member before performing the
sentinel check, so when it raises the logic error the previously stored path
has already been erased. -/
theorem astar_reconstruct_clears_path_first (s : AStarSolver)
    (h : s.shortestDistance = -1) :
    AStarSolver.reconstructPath s = (.error .logicError, { s with path := [] }) := by
  simp only [AStarSolver.reconstructPath, if_pos h]

/-- Witness for C10: a solver holding a previously reconstructed path loses it
when the call raises. -/
theorem astar_reconstruct_clears_path_first_witness :
    AStarSolver.reconstructPath ⟨[[]], [0], 0, 0, 1, -1, [], [0, 1, 2]⟩ =
      (.error .logicError, ⟨[[]], [0], 0, 0, 1, -1, [], []⟩) :=
  astar_reconstruct_clears_path_first _ rfl

/-- C4: on any state reachable from a successful construction, a `solve()` call
that exhausts the frontier returns `false` and leaves the stored distance at the
`-1` sentinel, so a subsequent `getShortestPath()` yields `-1`.  This covers
every call to `solve()`, including calls made after earlier calls. -/
theorem astar_failed_solve_sentinel {grid : List (List Int)}
    {edges : List (Int × Int × Int)} {src dst V : Int} {s₀ s s' : AStarSolver}
    (hmk : mkAStarSolver grid edges src dst V = .ok s₀)
    (hr : Reaches s₀ s)
    (hsolve : AStarSolver.solve s = .ok (false, s')) :
    s'.shortestDistance = -1 ∧
    AStarSolver.getShortestPath s' = .ok (-1, s') := by
  obtain ⟨-, -, -, -, hsd0, -, -, -, -⟩ := mkAStarSolver_ok hmk
  obtain ⟨h1, h2, h3, h4, h5, -, dist, hcore, -, hfalse⟩ := solve_fields hsolve
  have hssd : s.shortestDistance = -1 := by
    rcases reaches_sd hr with hl | ⟨dist0, hc0, -⟩
    · rw [hl, hsd0]
    · rw [hcore] at hc0
      injection hc0 with hx
      injection hx with hb hrest
      cases hb
  have hs'sd : s'.shortestDistance = -1 := by rw [hfalse rfl, hssd]
  refine ⟨hs'sd, ?_⟩
  have hcore1 : solveCore s'.graph s'.heuristicValues s'.source s'.destination s'.V =
      .ok (false, dist, s'.parent) := by
    rw [h1, h2, h3, h4, h5]
    exact hcore
  simp only [AStarSolver.getShortestPath, if_pos hs'sd, AStarSolver.solve, hcore1]
  have hx : ({ s' with parent := s'.parent } : AStarSolver) = s' := rfl
  rw [hx, hs'sd]

/-- Witness for C4: a two-vertex graph with no edges, source `0`,
destination `1`. -/
theorem astar_failed_solve_sentinel_witness :
    (⟨[[], []], [1, 0], 0, 1, 2, -1, [-1, -1], []⟩ : AStarSolver).shortestDistance = -1 ∧
    AStarSolver.getShortestPath (⟨[[], []], [1, 0], 0, 1, 2, -1, [-1, -1], []⟩ : AStarSolver) =
      .ok (-1, ⟨[[], []], [1, 0], 0, 1, 2, -1, [-1, -1], []⟩) := by
  have hmk : mkAStarSolver [[0, 1]] [] 0 1 2 =
      .ok ⟨[[], []], [1, 0], 0, 1, 2, -1, [], []⟩ := by decide
  have hsolve : AStarSolver.solve (⟨[[], []], [1, 0], 0, 1, 2, -1, [], []⟩ : AStarSolver) =
      .ok (false, ⟨[[], []], [1, 0], 0, 1, 2, -1, [-1, -1], []⟩) := by decide
  exact astar_failed_solve_sentinel hmk (Reaches.init _) hsolve

/-- C6: on any state reachable from a successful construction,
`reconstructPath()` raises the logic error exactly when no successful solve has
been recorded (the stored distance is still `-1`); with a recorded successful
solve it raises nothing. -/
theorem astar_reconstruct_logicError_iff {grid : List (List Int)}
    {edges : List (Int × Int × Int)} {src dst V : Int} {s₀ s : AStarSolver}
    (hmk : mkAStarSolver grid edges src dst V = .ok s₀)
    (hr : Reaches s₀ s) :
    ((AStarSolver.reconstructPath s).1 = .error .logicError ↔
      s.shortestDistance = -1) ∧
    (s.shortestDistance ≠ -1 → ∃ p, (AStarSolver.reconstructPath s).1 = .ok p) := by
  obtain ⟨hV0, -, -, hsV, hsd0, -, -, hGW, hhlen⟩ := mkAStarSolver_ok hmk
  obtain ⟨hc1, hc2, hc3, hc4, hc5⟩ := reaches_coreEq hr
  rcases reaches_sd hr with hl | hrec
  · have hsd : s.shortestDistance = -1 := by rw [hl]; exact hsd0
    exact ⟨⟨fun _ => hsd, fun _ => by
      simp only [AStarSolver.reconstructPath, if_pos hsd]⟩,
      fun hne => absurd hsd hne⟩
  · have hGWs : GraphWF s.graph V.toNat := by rw [hc1]; exact hGW
    have hhs : s.heuristicValues.length = V.toNat := by rw [hc2]; exact hhlen
    have hVs : s.V.toNat = V.toNat := by rw [hc5, hsV]
    obtain ⟨hsdge, steps, p, hrecon, -, -, -, -, -⟩ :=
      reconstruct_of_recorded hGWs hhs hVs hrec
    have hne : s.shortestDistance ≠ -1 := by omega
    refine ⟨⟨fun hcontra => ?_, fun h => absurd h hne⟩, fun _ => ⟨p, ?_⟩⟩
    · rw [hrecon] at hcontra
      cases hcontra
    · rw [hrecon]

/-- Witness for C6 at a concretely constructed solver that has not solved. -/
theorem astar_reconstruct_logicError_iff_witness :
    ((AStarSolver.reconstructPath
        (⟨[[], []], [1, 0], 0, 1, 2, -1, [], []⟩ : AStarSolver)).1 =
      .error .logicError ↔
      (⟨[[], []], [1, 0], 0, 1, 2, -1, [], []⟩ : AStarSolver).shortestDistance = -1) ∧
    ((⟨[[], []], [1, 0], 0, 1, 2, -1, [], []⟩ : AStarSolver).shortestDistance ≠ -1 →
      ∃ p, (AStarSolver.reconstructPath
        (⟨[[], []], [1, 0], 0, 1, 2, -1, [], []⟩ : AStarSolver)).1 = .ok p) := by
  have hmk : mkAStarSolver [[0, 1]] [] 0 1 2 =
      .ok ⟨[[], []], [1, 0], 0, 1, 2, -1, [], []⟩ := by decide
  exact astar_reconstruct_logicError_iff hmk (Reaches.init _)

/-- C2: on any state reachable from a successful construction on which `solve()`
has just returned `true`, `reconstructPath()` returns a sequence starting at the
source, ending at the destination, whose consecutive pairs are edges of the
adjacency structure carrying weights that sum to the value `getShortestPath()`
returns. -/
theorem astar_reconstructPath_valid {grid : List (List Int)}
    {edges : List (Int × Int × Int)} {src dst V : Int} {s₀ s s₁ : AStarSolver}
    (hmk : mkAStarSolver grid edges src dst V = .ok s₀)
    (hr : Reaches s₀ s)
    (hsolve : AStarSolver.solve s = .ok (true, s₁)) :
    ∃ steps p s₂,
      AStarSolver.reconstructPath s₁ = (.ok p, s₂) ∧
      p.head? = some s₀.source ∧
      p.getLast? = some s₀.destination ∧
      p = s₀.source :: steps.map Prod.fst ∧
      Walk s₀.graph s₀.source steps s₀.destination ∧
      walkCost steps = s₁.shortestDistance ∧
      AStarSolver.getShortestPath s₁ = .ok (s₁.shortestDistance, s₁) := by
  obtain ⟨hV0, -, -, hsV, -, -, -, hGW, hhlen⟩ := mkAStarSolver_ok hmk
  obtain ⟨hc1, hc2, hc3, hc4, hc5⟩ := reaches_coreEq hr
  obtain ⟨h1, h2, h3, h4, h5, -, dist, hcore, htrue, -⟩ := solve_fields hsolve
  have hrec : RecordedOK s₁ := by
    refine ⟨dist, ?_, ?_⟩
    · rw [h1, h2, h3, h4, h5]
      exact hcore
    · rw [h4]
      exact htrue rfl
  have hGW1 : GraphWF s₁.graph V.toNat := by rw [h1, hc1]; exact hGW
  have hh1 : s₁.heuristicValues.length = V.toNat := by rw [h2, hc2]; exact hhlen
  have hV1 : s₁.V.toNat = V.toNat := by rw [h5, hc5, hsV]
  obtain ⟨hsdge, steps, p, hrecon, hpeq, hhd, hlast, hwalk, hcost⟩ :=
    reconstruct_of_recorded hGW1 hh1 hV1 hrec
  have hsrc1 : s₁.source = s₀.source := h3.trans hc3
  have hdst1 : s₁.destination = s₀.destination := h4.trans hc4
  have hg1 : s₁.graph = s₀.graph := h1.trans hc1
  refine ⟨steps, p, { s₁ with path := p }, hrecon, ?_, ?_, ?_, ?_, hcost, ?_⟩
  · rw [← hsrc1]
    exact hhd
  · rw [← hdst1]
    exact hlast
  · rw [← hsrc1]
    exact hpeq
  · rw [← hg1, ← hsrc1, ← hdst1]
    exact hwalk
  · have hne : s₁.shortestDistance ≠ -1 := by omega
    simp only [AStarSolver.getShortestPath, if_neg hne]

/-- Witness for C2 at the concrete three-vertex scenario. -/
theorem astar_reconstructPath_valid_witness :
    ∃ steps p s₂,
      AStarSolver.reconstructPath
          (⟨[[(1, 5)], [(0, 5), (2, 3)], [(1, 3)]], [2, 1, 0], 0, 2, 3, 8,
            [-1, 0, 1], []⟩ : AStarSolver) = (.ok p, s₂) ∧
      p.head? = some (0 : Int) ∧
      p.getLast? = some (2 : Int) ∧
      p = (0 : Int) :: steps.map Prod.fst ∧
      Walk [[(1, 5)], [(0, 5), (2, 3)], [(1, 3)]] 0 steps 2 ∧
      walkCost steps = (8 : Int) ∧
      AStarSolver.getShortestPath
          (⟨[[(1, 5)], [(0, 5), (2, 3)], [(1, 3)]], [2, 1, 0], 0, 2, 3, 8,
            [-1, 0, 1], []⟩ : AStarSolver) =
        .ok (8, ⟨[[(1, 5)], [(0, 5), (2, 3)], [(1, 3)]], [2, 1, 0], 0, 2, 3, 8,
            [-1, 0, 1], []⟩) := by
  have hmk : mkAStarSolver [[0, 1, 2]] [(0, 1, 5), (1, 2, 3)] 0 2 3 =
      .ok ⟨[[(1, 5)], [(0, 5), (2, 3)], [(1, 3)]], [2, 1, 0], 0, 2, 3, -1, [], []⟩ := by
    decide
  have hsolve : AStarSolver.solve
      (⟨[[(1, 5)], [(0, 5), (2, 3)], [(1, 3)]], [2, 1, 0], 0, 2, 3, -1, [], []⟩ :
        AStarSolver) =
      .ok (true, ⟨[[(1, 5)], [(0, 5), (2, 3)], [(1, 3)]], [2, 1, 0], 0, 2, 3, 8,
        [-1, 0, 1], []⟩) := by decide
  exact astar_reconstructPath_valid hmk (Reaches.init _) hsolve

/-- C1 (amended): for a successfully constructed solver whose source lies in
`[0, V)`, `solve()` either runs into signed-overflow undefined behaviour on one
of the `int` additions `dist[u] + w` or `dist[v] + heuristicValues[v]`
(modelled as the undefined-behaviour error), or terminates normally; in the
latter case it (i) returns `true` only if the destination is reachable, and
then `getShortestPath()` returns the total weight of an actual
source-to-destination walk (hence at least the true shortest distance), and
(ii) when the destination is unreachable it returns `false` and leaves the
distance at the `-1` sentinel.  Optimality and the converse (reachable implies
`true`) do not hold; see the counterexample. -/
theorem astar_solve_sound_unreachable_false {grid : List (List Int)}
    {edges : List (Int × Int × Int)} {src dst V : Int} {s₀ : AStarSolver}
    (hmk : mkAStarSolver grid edges src dst V = .ok s₀)
    (hs0 : 0 ≤ src) (hsV : src < V) :
    AStarSolver.solve s₀ = .error .undefined ∨
    ∃ (b : Bool) (s' : AStarSolver),
      AStarSolver.solve s₀ = .ok (b, s') ∧
      (b = true → 0 ≤ s'.shortestDistance ∧
        AStarSolver.getShortestPath s' = .ok (s'.shortestDistance, s') ∧
        ∃ steps, Walk s₀.graph s₀.source steps s₀.destination ∧
          walkCost steps = s'.shortestDistance) ∧
      ((¬∃ steps, Walk s₀.graph s₀.source steps s₀.destination) → b = false) ∧
      (b = false → s'.shortestDistance = -1) := by
  obtain ⟨hV0, hsrc, hdst, hV, hsd0, -, -, hGW, hh⟩ := mkAStarSolver_ok hmk
  have hs0' : 0 ≤ s₀.source := by rw [hsrc]; exact hs0
  have hsN : s₀.source.toNat < V.toNat := by rw [hsrc]; omega
  have hVs : s₀.V.toNat = V.toNat := by rw [hV]
  rcases solve_spec hGW hh hVs hs0' hsN with herr | ⟨b, s', hsolve, htrue, hfalse⟩
  · exact Or.inl herr
  right
  refine ⟨b, s', hsolve, ?_, ?_, ?_⟩
  · intro hb
    obtain ⟨hge, hrec, hcore, steps, hwalk, hcost⟩ := htrue hb
    refine ⟨hge, ?_, steps, hwalk, hcost⟩
    have hne : s'.shortestDistance ≠ -1 := by omega
    simp only [AStarSolver.getShortestPath, if_neg hne]
  · intro hnwalk
    cases b with
    | false => rfl
    | true =>
      obtain ⟨-, -, -, steps, hwalk, -⟩ := htrue rfl
      exact absurd ⟨steps, hwalk⟩ hnwalk
  · intro hb
    rw [hfalse hb, hsd0]

/-- Witness for C1 at the concrete three-vertex scenario. -/
theorem astar_solve_sound_unreachable_false_witness :
    (AStarSolver.solve
        (⟨[[(1, 5)], [(0, 5), (2, 3)], [(1, 3)]], [2, 1, 0], 0, 2, 3, -1, [], []⟩ :
          AStarSolver) = .error .undefined ∨
    ∃ (b : Bool) (s' : AStarSolver),
      AStarSolver.solve
          (⟨[[(1, 5)], [(0, 5), (2, 3)], [(1, 3)]], [2, 1, 0], 0, 2, 3, -1, [], []⟩ :
            AStarSolver) = .ok (b, s') ∧
      (b = true → 0 ≤ s'.shortestDistance ∧
        AStarSolver.getShortestPath s' = .ok (s'.shortestDistance, s') ∧
        ∃ steps, Walk [[(1, 5)], [(0, 5), (2, 3)], [(1, 3)]] 0 steps 2 ∧
          walkCost steps = s'.shortestDistance) ∧
      ((¬∃ steps, Walk [[(1, 5)], [(0, 5), (2, 3)], [(1, 3)]] 0 steps 2) → b = false) ∧
      (b = false → s'.shortestDistance = -1)) ∧
    AStarSolver.solve
        (⟨[[(1, 5)], [(0, 5), (2, 3)], [(1, 3)]], [2, 1, 0], 0, 2, 3, -1, [], []⟩ :
          AStarSolver) =
      .ok (true, ⟨[[(1, 5)], [(0, 5), (2, 3)], [(1, 3)]], [2, 1, 0], 0, 2, 3, 8,
        [-1, 0, 1], []⟩) := by
  have hmk : mkAStarSolver [[0, 1, 2]] [(0, 1, 5), (1, 2, 3)] 0 2 3 =
      .ok ⟨[[(1, 5)], [(0, 5), (2, 3)], [(1, 3)]], [2, 1, 0], 0, 2, 3, -1, [], []⟩ := by
    decide
  exact ⟨astar_solve_sound_unreachable_false hmk (by decide) (by decide), by decide⟩

/-- Counterexample for C1 as stated.  First conjunct: with an admissible but
inconsistent heuristic (realized purely through grid placement) the solver
returns `true` with distance `104` even though a source-to-destination walk of
weight `102` exists, so the returned value is not the minimum and differs from
what Dijkstra computes.  Second conjunct: with a single edge of weight
`2^31 - 1` (the `int` infinity sentinel) the destination is reachable yet
`solve()` returns `false`, so "true iff reachable" also fails. -/
theorem astar_optimality_refuted :
    (AStarSolver.solve
        (⟨[[(1, 1), (2, 4)], [(0, 1), (2, 1)], [(0, 4), (1, 1), (3, 100)], [(2, 100)]],
          [2, 6, 1, 0], 0, 3, 4, -1, [], []⟩ : AStarSolver) =
      .ok (true,
        ⟨[[(1, 1), (2, 4)], [(0, 1), (2, 1)], [(0, 4), (1, 1), (3, 100)], [(2, 100)]],
          [2, 6, 1, 0], 0, 3, 4, 104, [-1, 0, 0, 2], []⟩) ∧
      mkAStarSolver [[3, 2], [-1, 0], [-1, -1], [-1, -1], [-1, -1], [-1, -1], [1, -1]]
        [(0, 1, 1), (0, 2, 4), (1, 2, 1), (2, 3, 100)] 0 3 4 =
      .ok (⟨[[(1, 1), (2, 4)], [(0, 1), (2, 1)], [(0, 4), (1, 1), (3, 100)], [(2, 100)]],
          [2, 6, 1, 0], 0, 3, 4, -1, [], []⟩ : AStarSolver) ∧
      Walk [[(1, 1), (2, 4)], [(0, 1), (2, 1)], [(0, 4), (1, 1), (3, 100)], [(2, 100)]]
        0 [(1, 1), (2, 1), (3, 100)] 3 ∧
      walkCost [(1, 1), (2, 1), (3, 100)] = 102) ∧
    (mkAStarSolver [[0, 1]] [(0, 1, 2147483647)] 0 1 2 =
      .ok (⟨[[(1, 2147483647)], [(0, 2147483647)]], [1, 0], 0, 1, 2, -1, [], []⟩ :
        AStarSolver) ∧
      AStarSolver.solve
        (⟨[[(1, 2147483647)], [(0, 2147483647)]], [1, 0], 0, 1, 2, -1, [], []⟩ :
          AStarSolver) =
      .ok (false,
        ⟨[[(1, 2147483647)], [(0, 2147483647)]], [1, 0], 0, 1, 2, -1, [-1, -1], []⟩) ∧
      Walk [[(1, 2147483647)], [(0, 2147483647)]] 0 [(1, 2147483647)] 1) := by
  refine ⟨⟨?_, ?_, ?_, ?_⟩, ?_, ?_, ?_⟩
  · decide
  · decide
  · decide
  · decide
  · decide
  · decide
  · decide

/-! ### Counting lemmas for grid occurrences -/

theorem occCount_pos {row : List Int} {v : Int} :
    ∀ j : Nat, row[j]? = some v → 0 < occCount v row := by
  induction row with
  | nil => intro j h; cases h
  | cons c cs ih =>
    intro j h
    cases j with
    | zero =>
      simp at h
      simp [occCount, h]
    | succ j =>
      simp at h
      have := ih j h
      simp [occCount]
      omega

theorem occCount_two {row : List Int} {v : Int} :
    ∀ j j' : Nat, j ≠ j' → row[j]? = some v → row[j']? = some v →
      2 ≤ occCount v row := by
  induction row with
  | nil => intro j j' _ h; cases h
  | cons c cs ih =>
    intro j j' hne h h'
    cases j with
    | zero =>
      cases j' with
      | zero => omega
      | succ j' =>
        simp at h h'
        have := occCount_pos j' h'
        simp [occCount, h]
        omega
    | succ j =>
      cases j' with
      | zero =>
        simp at h h'
        have := occCount_pos j h
        simp [occCount, h']
        omega
      | succ j' =>
        simp at h h'
        have := ih j j' (by omega) h h'
        simp [occCount]
        omega

theorem countOcc_row_le {grid : List (List Int)} {v : Int} :
    ∀ (i : Nat) (row : List Int), grid[i]? = some row →
      occCount v row ≤ countOcc grid v := by
  induction grid with
  | nil => intro i row h; cases h
  | cons r rest ih =>
    intro i row h
    cases i with
    | zero =>
      simp at h
      subst h
      simp [countOcc]
    | succ i =>
      simp at h
      have := ih i row h
      simp [countOcc]
      omega

theorem countOcc_two_rows {grid : List (List Int)} {v : Int} :
    ∀ (i i' : Nat) (rowA rowB : List Int), i < i' →
      grid[i]? = some rowA → grid[i']? = some rowB →
      occCount v rowA + occCount v rowB ≤ countOcc grid v := by
  induction grid with
  | nil => intro i i' rowA rowB _ h; cases h
  | cons r rest ih =>
    intro i i' rowA rowB hlt hA hB
    cases i with
    | zero =>
      simp at hA
      subst hA
      cases i' with
      | zero => omega
      | succ i' =>
        simp at hB
        have := countOcc_row_le (v := v) i' rowB hB
        simp [countOcc]
        omega
    | succ i =>
      cases i' with
      | zero => omega
      | succ i' =>
        simp at hA hB
        have := ih i i' rowA rowB (by omega) hA hB
        simp [countOcc]
        omega

theorem exists_get_of_occCount_pos {row : List Int} {v : Int}
    (h : 0 < occCount v row) : ∃ j : Nat, row[j]? = some v := by
  induction row with
  | nil => simp [occCount] at h
  | cons c cs ih =>
    by_cases hc : c = v
    · exact ⟨0, by simp [hc]⟩
    · simp [occCount, hc] at h
      obtain ⟨j, hj⟩ := ih h
      exact ⟨j + 1, by simpa using hj⟩

theorem exists_cell_of_countOcc_pos {grid : List (List Int)} {v : Int}
    (h : 0 < countOcc grid v) : ∃ i j : Nat, cellAt grid i j = some v := by
  induction grid with
  | nil => simp [countOcc] at h
  | cons r rest ih =>
    by_cases hr : 0 < occCount v r
    · obtain ⟨j, hj⟩ := exists_get_of_occCount_pos hr
      exact ⟨0, j, by simp [cellAt, hj]⟩
    · simp [countOcc] at h
      obtain ⟨i, j, hij⟩ := ih (by omega)
      refine ⟨i + 1, j, ?_⟩
      simp only [cellAt] at hij
      simpa [cellAt] using hij

theorem countOcc_pos_of_cellAt {grid : List (List Int)} {v : Int} {i j : Nat}
    (h : cellAt grid i j = some v) : 0 < countOcc grid v := by
  simp only [cellAt] at h
  cases hg : grid[i]? with
  | none => simp only [hg] at h; cases h
  | some row =>
    simp only [hg] at h
    exact lt_of_lt_of_le (occCount_pos j h) (countOcc_row_le i row hg)

/-- With at most one occurrence of `v` in the grid, two cell positions holding
`v` coincide. -/
theorem cell_unique {grid : List (List Int)} {v : Int} {i j i' j' : Nat}
    (hcount : countOcc grid v ≤ 1)
    (h1 : cellAt grid i j = some v) (h2 : cellAt grid i' j' = some v) :
    i = i' ∧ j = j' := by
  simp only [cellAt] at h1 h2
  cases hgA : grid[i]? with
  | none => simp only [hgA] at h1; cases h1
  | some rowA =>
    simp only [hgA] at h1
    cases hgB : grid[i']? with
    | none => simp only [hgB] at h2; cases h2
    | some rowB =>
      simp only [hgB] at h2
      rcases Nat.lt_trichotomy i i' with hlt | heq | hgt
      · have := countOcc_two_rows (v := v) i i' rowA rowB hlt hgA hgB
        have hA := occCount_pos (v := v) j h1
        have hB := occCount_pos (v := v) j' h2
        omega
      · subst heq
        rw [hgA] at hgB
        injection hgB with hgB
        subst hgB
        by_cases hj : j = j'
        · exact ⟨rfl, hj⟩
        · have := occCount_two j j' hj h1 h2
          have := countOcc_row_le (v := v) i rowA hgA
          omega
      · have := countOcc_two_rows (v := v) i' i rowB rowA hgt hgB hgA
        have hA := occCount_pos (v := v) j h1
        have hB := occCount_pos (v := v) j' h2
        omega

/-! ### Lemmas for the constructor's error behaviour -/

/-- Both endpoints of an edge lie in `[0, V)`. -/
def edgeOk (V : Int) (e : Int × Int × Int) : Prop :=
  0 ≤ e.1 ∧ e.1 < V ∧ 0 ≤ e.2.1 ∧ e.2.1 < V

theorem addEdgeBoth_success {g : List (List (Int × Int))} {V u v w : Int}
    (hu0 : 0 ≤ u) (huV : u < V) (hv0 : 0 ≤ v) (hvV : v < V) (hw : 0 ≤ w)
    (hg : g.length = V.toNat) :
    ∃ g2, addEdgeBoth g V u v w = .ok g2 ∧ g2.length = g.length := by
  have hcond : ¬(u < 0 ∨ V ≤ u ∨ v < 0 ∨ V ≤ v) := by omega
  have hwc : ¬(w < 0) := by omega
  have huN : u.toNat < g.length := by omega
  obtain ⟨adjU, hget⟩ : ∃ a, g[u.toNat]? = some a := ⟨_, List.getElem?_eq_getElem huN⟩
  have e1 : vGet g u = .ok adjU := vGet_ok_of hu0 hget
  have e2 : vSet g u (adjU ++ [(v, w)]) = .ok (g.set u.toNat (adjU ++ [(v, w)])) :=
    vSet_ok_of hu0 huN
  have hg1len : (g.set u.toNat (adjU ++ [(v, w)])).length = g.length := by simp
  have hvN : v.toNat < (g.set u.toNat (adjU ++ [(v, w)])).length := by omega
  obtain ⟨adjV, hgetV⟩ : ∃ a, (g.set u.toNat (adjU ++ [(v, w)]))[v.toNat]? = some a :=
    ⟨_, List.getElem?_eq_getElem hvN⟩
  have e3 : vGet (g.set u.toNat (adjU ++ [(v, w)])) v = .ok adjV := vGet_ok_of hv0 hgetV
  have e4 : vSet (g.set u.toNat (adjU ++ [(v, w)])) v (adjV ++ [(u, w)]) =
      .ok ((g.set u.toNat (adjU ++ [(v, w)])).set v.toNat (adjV ++ [(u, w)])) :=
    vSet_ok_of hv0 hvN
  refine ⟨(g.set u.toNat (adjU ++ [(v, w)])).set v.toNat (adjV ++ [(u, w)]), ?_, by simp⟩
  simp only [addEdgeBoth, if_neg hcond, if_neg hwc, e1, e2, e3, e4]

theorem addEdgeBoth_oob {g : List (List (Int × Int))} {V u v w : Int}
    (h : ¬ edgeOk V (u, v, w)) :
    addEdgeBoth g V u v w = .error .outOfRange := by
  simp only [edgeOk] at h
  have hcond : u < 0 ∨ V ≤ u ∨ v < 0 ∨ V ≤ v := by
    simp at h
    omega
  simp only [addEdgeBoth, if_pos hcond]

theorem addEdgeBoth_negw {g : List (List (Int × Int))} {V u v w : Int}
    (hok : edgeOk V (u, v, w)) (hw : w < 0) :
    addEdgeBoth g V u v w = .error .invalidArgument := by
  obtain ⟨h1, h2, h3, h4⟩ := hok
  have hcond : ¬(u < 0 ∨ V ≤ u ∨ v < 0 ∨ V ≤ v) := by
    simp only [edgeOk] at h1 h2 h3 h4 ⊢
    omega
  simp only [addEdgeBoth, if_neg hcond, if_pos hw]

theorem buildGraph_success {V : Int} :
    ∀ (edges : List (Int × Int × Int)) (g : List (List (Int × Int))),
      g.length = V.toNat →
      (∀ e ∈ edges, edgeOk V e ∧ 0 ≤ e.2.2) →
      ∃ g', buildGraph V g edges = .ok g' := by
  intro edges
  induction edges with
  | nil => exact fun g _ _ => ⟨g, rfl⟩
  | cons e rest ih =>
    intro g hg hall
    obtain ⟨u, v, w⟩ := e
    obtain ⟨⟨h1, h2, h3, h4⟩, h5⟩ := hall (u, v, w) (by simp)
    obtain ⟨g1, hA, hlen⟩ := addEdgeBoth_success h1 h2 h3 h4 h5 hg
    obtain ⟨g', hrest⟩ := ih g1 (by omega) (fun e he => hall e (by simp [he]))
    refine ⟨g', ?_⟩
    simp only [buildGraph, hA]
    exact hrest

theorem buildGraph_oob {V : Int} :
    ∀ (edges : List (Int × Int × Int)) (g : List (List (Int × Int))),
      g.length = V.toNat →
      (∀ e ∈ edges, 0 ≤ e.2.2) →
      (∃ e ∈ edges, ¬ edgeOk V e) →
      buildGraph V g edges = .error .outOfRange := by
  intro edges
  induction edges with
  | nil =>
    intro g _ _ hbad
    simp at hbad
  | cons e rest ih =>
    intro g hg hw hbad
    obtain ⟨u, v, w⟩ := e
    by_cases hok : edgeOk V (u, v, w)
    · obtain ⟨h1, h2, h3, h4⟩ := id hok
      obtain ⟨g1, hA, hlen⟩ := addEdgeBoth_success h1 h2 h3 h4
        (hw (u, v, w) (by simp)) hg
      simp only [buildGraph, hA]
      refine ih g1 (by omega) (fun e he => hw e (by simp [he])) ?_
      obtain ⟨e', he', hbe⟩ := hbad
      rcases List.mem_cons.1 he' with rfl | hmem
      · exact absurd hok hbe
      · exact ⟨e', hmem, hbe⟩
    · have hA := addEdgeBoth_oob (g := g) hok
      simp only [buildGraph, hA]

theorem buildGraph_negw {V : Int} :
    ∀ (edges : List (Int × Int × Int)) (g : List (List (Int × Int))),
      g.length = V.toNat →
      (∀ e ∈ edges, edgeOk V e) →
      (∃ e ∈ edges, e.2.2 < 0) →
      buildGraph V g edges = .error .invalidArgument := by
  intro edges
  induction edges with
  | nil =>
    intro g _ _ hbad
    simp at hbad
  | cons e rest ih =>
    intro g hg hok hbad
    obtain ⟨u, v, w⟩ := e
    by_cases hw : 0 ≤ w
    · obtain ⟨h1, h2, h3, h4⟩ := hok (u, v, w) (by simp)
      obtain ⟨g1, hA, hlen⟩ := addEdgeBoth_success h1 h2 h3 h4 hw hg
      simp only [buildGraph, hA]
      refine ih g1 (by omega) (fun e he => hok e (by simp [he])) ?_
      obtain ⟨e', he', hbe⟩ := hbad
      rcases List.mem_cons.1 he' with rfl | hmem
      · simp at hbe
        omega
      · exact ⟨e', hmem, hbe⟩
    · have hA := addEdgeBoth_negw (g := g) (hok (u, v, w) (by simp)) (by omega)
      simp only [buildGraph, hA]

/-! ### Lemmas for the grid scans -/

theorem scanRowFor_none {row : List Int} {target : Int} :
    ∀ (r j : Nat), j + r ≤ row.length →
      (∀ k, j ≤ k → k < j + r → row[k]? ≠ some target) →
      scanRowFor row target j r = .ok none := by
  intro r
  induction r with
  | zero => intro j _ _; rfl
  | succ r ih =>
    intro j hlen hmiss
    obtain ⟨c, hc⟩ : ∃ c, row[j]? = some c :=
      ⟨_, List.getElem?_eq_getElem (by omega)⟩
    have hct : ¬(c = target) := by
      intro h
      exact hmiss j (by omega) (by omega) (h ▸ hc)
    simp only [scanRowFor, hc, if_neg hct]
    exact ih (j + 1) (by omega) (fun k hk1 hk2 => hmiss k (by omega) (by omega))

theorem scanRowFor_finds {row : List Int} {target : Int} :
    ∀ (r j : Nat), (∃ k, j ≤ k ∧ k < j + r ∧ row[k]? = some target) →
      j + r ≤ row.length →
      ∃ k, scanRowFor row target j r = .ok (some k) := by
  intro r
  induction r with
  | zero =>
    intro j hk _
    obtain ⟨k, h1, h2, -⟩ := hk
    omega
  | succ r ih =>
    intro j hk hlen
    obtain ⟨c, hc⟩ : ∃ c, row[j]? = some c :=
      ⟨_, List.getElem?_eq_getElem (by omega)⟩
    by_cases hct : c = target
    · exact ⟨j, by simp only [scanRowFor, hc, if_pos hct]⟩
    · have hk' : ∃ k, j + 1 ≤ k ∧ k < j + 1 + r ∧ row[k]? = some target := by
        obtain ⟨k, h1, h2, h3⟩ := hk
        have hne : k ≠ j := by
          intro h
          subst h
          rw [hc] at h3
          exact hct (Option.some.inj h3)
        exact ⟨k, by omega, by omega, h3⟩
      obtain ⟨k', hres⟩ := ih (j + 1) hk' (by omega)
      exact ⟨k', by simp only [scanRowFor, hc, if_neg hct]; exact hres⟩

theorem scanRowsFor_none {w : Nat} {target : Int} :
    ∀ (rows : List (List Int)) (i : Nat),
      (∀ row ∈ rows, w ≤ row.length ∧ ∀ k, k < w → row[k]? ≠ some target) →
      scanRowsFor w target i rows = .ok none := by
  intro rows
  induction rows with
  | nil => intro i _; rfl
  | cons row rest ih =>
    intro i hall
    obtain ⟨hlen, hmiss⟩ := hall row (by simp)
    have h1 : scanRowFor row target 0 w = .ok none :=
      scanRowFor_none w 0 (by omega) (fun k _ hk => hmiss k (by omega))
    simp only [scanRowsFor, h1]
    exact ih (i + 1) (fun r hr => hall r (by simp [hr]))

theorem scanRowsFor_finds {w : Nat} {target : Int} :
    ∀ (rows : List (List Int)) (i : Nat),
      (∀ row ∈ rows, w ≤ row.length) →
      (∃ (a b : Nat) (row : List Int), rows[a]? = some row ∧ b < w ∧
        row[b]? = some target) →
      ∃ p, scanRowsFor w target i rows = .ok (some p) := by
  intro rows
  induction rows with
  | nil =>
    intro i _ hex
    obtain ⟨a, b, row, ha, -, -⟩ := hex
    cases ha
  | cons row rest ih =>
    intro i hlens hex
    by_cases hhead : ∃ b, b < w ∧ row[b]? = some target
    · obtain ⟨b, hb, hget⟩ := hhead
      obtain ⟨k, hres⟩ := scanRowFor_finds w 0
        ⟨b, by omega, by omega, hget⟩ (by have := hlens row (by simp); omega)
      exact ⟨(i, k), by simp only [scanRowsFor, hres]⟩
    · have h1 : scanRowFor row target 0 w = .ok none := by
        refine scanRowFor_none w 0 (by have := hlens row (by simp); omega) ?_
        intro k _ hk hcontra
        exact hhead ⟨k, by omega, hcontra⟩
      obtain ⟨a, b, row', ha, hb, hget⟩ := hex
      cases a with
      | zero =>
        simp at ha
        subst ha
        exact absurd ⟨b, hb, hget⟩ hhead
      | succ a =>
        simp at ha
        obtain ⟨p, hres⟩ := ih (i + 1) (fun r hr => hlens r (by simp [hr]))
          ⟨a, b, row', ha, hb, hget⟩
        exact ⟨p, by simp only [scanRowsFor, h1]; exact hres⟩

theorem scanRowFor_some {row : List Int} {target : Int} :
    ∀ (r j k : Nat), scanRowFor row target j r = .ok (some k) →
      j ≤ k ∧ k < j + r ∧ row[k]? = some target := by
  intro r
  induction r with
  | zero =>
    intro j k h
    cases h
  | succ r ih =>
    intro j k h
    unfold scanRowFor at h
    cases hc : row[j]? with
    | none =>
      simp only [hc] at h
      cases h
    | some c =>
      simp only [hc] at h
      by_cases hct : c = target
      · rw [if_pos hct] at h
        injection h with h
        injection h with h
        subst h
        exact ⟨le_refl j, by omega, by rw [hc, hct]⟩
      · rw [if_neg hct] at h
        obtain ⟨h1, h2, h3⟩ := ih (j + 1) k h
        exact ⟨by omega, by omega, h3⟩

theorem scanRowsFor_some {w : Nat} {target : Int} :
    ∀ (rows : List (List Int)) (i a b : Nat),
      scanRowsFor w target i rows = .ok (some (a, b)) →
      ∃ (k : Nat) (row : List Int), a = i + k ∧ rows[k]? = some row ∧
        b < w ∧ row[b]? = some target := by
  intro rows
  induction rows with
  | nil =>
    intro i a b h
    cases h
  | cons row rest ih =>
    intro i a b h
    unfold scanRowsFor at h
    cases hs : scanRowFor row target 0 w with
    | error e =>
      simp only [hs] at h
      cases h
    | ok res =>
      cases res with
      | some j =>
        simp only [hs] at h
        injection h with h
        injection h with h
        injection h with ha hb
        obtain ⟨-, h2, h3⟩ := scanRowFor_some w 0 j hs
        exact ⟨0, row, by omega, by simp, by omega, hb ▸ h3⟩
      | none =>
        simp only [hs] at h
        obtain ⟨k, row', ha, hget, hb, hcell⟩ := ih (i + 1) a b h
        exact ⟨k + 1, row', by omega, by simpa using hget, hb, hcell⟩

theorem initHeuRow_success {row : List Int} {i x y L : Nat} :
    ∀ (r j : Nat) (hv : List Int), hv.length = L → j + r ≤ row.length →
      (∀ c ∈ row, c = -1 ∨ (0 ≤ c ∧ c.toNat < L)) →
      ∃ hv', initHeuRow hv row i x y j r = .ok hv' ∧ hv'.length = L := by
  intro r
  induction r with
  | zero => exact fun j hv hL _ _ => ⟨hv, rfl, hL⟩
  | succ r ih =>
    intro j hv hL hlen hcells
    obtain ⟨c, hc⟩ : ∃ c, row[j]? = some c :=
      ⟨_, List.getElem?_eq_getElem (by omega)⟩
    by_cases hc1 : c = -1
    · obtain ⟨hv', hres, hL'⟩ := ih (j + 1) hv hL (by omega) hcells
      exact ⟨hv', by simp only [initHeuRow, hc, if_pos hc1]; exact hres, hL'⟩
    · rcases hcells c (List.getElem?_mem hc) with h | ⟨h0, hlt⟩
      · exact absurd h hc1
      · have e1 : vSet hv c (getManhattenDistance i j x y) =
            .ok (hv.set c.toNat (getManhattenDistance i j x y)) :=
          vSet_ok_of h0 (by omega)
        obtain ⟨hv', hres, hL'⟩ := ih (j + 1)
          (hv.set c.toNat (getManhattenDistance i j x y)) (by simp [hL])
          (by omega) hcells
        exact ⟨hv', by simp only [initHeuRow, hc, if_neg hc1, e1]; exact hres, hL'⟩

theorem initHeuRows_success {w x y L : Nat} :
    ∀ (rows : List (List Int)) (i : Nat) (hv : List Int), hv.length = L →
      (∀ row ∈ rows, w ≤ row.length ∧ ∀ c ∈ row, c = -1 ∨ (0 ≤ c ∧ c.toNat < L)) →
      ∃ hv', initHeuRows w x y i hv rows = .ok hv' ∧ hv'.length = L := by
  intro rows
  induction rows with
  | nil => exact fun i hv hL _ => ⟨hv, rfl, hL⟩
  | cons row rest ih =>
    intro i hv hL hall
    obtain ⟨hlen, hcells⟩ := hall row (by simp)
    obtain ⟨hv1, hres1, hL1⟩ := initHeuRow_success (i := i) (x := x) (y := y)
      w 0 hv hL (by omega) hcells
    obtain ⟨hv', hres, hL'⟩ := ih (i + 1) hv1 hL1 (fun r hr => hall r (by simp [hr]))
    exact ⟨hv', by simp only [initHeuRows, hres1]; exact hres, hL'⟩

/-- C3 (amended): the constructor's error taxonomy.  `V ≤ 0` raises the
invalid-configuration error; with non-negative weights an out-of-range edge
endpoint raises the out-of-range error; with in-range endpoints a negative
weight raises the invalid-configuration error; with well-formed edges and a
rectangular grid a destination absent from the grid raises the
invalid-argument error; and when none of these conditions holds — and
additionally every grid row has the first row's width and every cell is `-1`
or a vertex id in `[0, V)` — construction succeeds. -/
theorem astar_construction_errors :
    (∀ (grid : List (List Int)) (edges : List (Int × Int × Int)) (src dst V : Int),
      V ≤ 0 → mkAStarSolver grid edges src dst V = .error .invalidArgument) ∧
    (∀ (grid : List (List Int)) (edges : List (Int × Int × Int)) (src dst V : Int),
      0 < V → (∀ e ∈ edges, 0 ≤ e.2.2) → (∃ e ∈ edges, ¬ edgeOk V e) →
      mkAStarSolver grid edges src dst V = .error .outOfRange) ∧
    (∀ (grid : List (List Int)) (edges : List (Int × Int × Int)) (src dst V : Int),
      0 < V → (∀ e ∈ edges, edgeOk V e) → (∃ e ∈ edges, e.2.2 < 0) →
      mkAStarSolver grid edges src dst V = .error .invalidArgument) ∧
    (∀ (grid : List (List Int)) (edges : List (Int × Int × Int)) (src dst V : Int),
      0 < V → (∀ e ∈ edges, edgeOk V e ∧ 0 ≤ e.2.2) →
      (∀ row ∈ grid, row.length = (grid.headD []).length) →
      countOcc grid dst = 0 →
      mkAStarSolver grid edges src dst V = .error .invalidArgument) ∧
    (∀ (grid : List (List Int)) (edges : List (Int × Int × Int)) (src dst V : Int),
      0 < V → (∀ e ∈ edges, edgeOk V e ∧ 0 ≤ e.2.2) →
      (∀ row ∈ grid, row.length = (grid.headD []).length) →
      (∀ row ∈ grid, ∀ c ∈ row, c = -1 ∨ (0 ≤ c ∧ c < V)) →
      0 < countOcc grid dst →
      ∃ s, mkAStarSolver grid edges src dst V = .ok s) := by
  refine ⟨?_, ?_, ?_, ?_, ?_⟩
  · intro grid edges src dst V hV
    simp only [mkAStarSolver, if_pos hV]
  · intro grid edges src dst V hV hw hbad
    have hb := buildGraph_oob edges (List.replicate V.toNat []) (by simp) hw hbad
    simp only [mkAStarSolver, if_neg (by omega : ¬ V ≤ 0), hb]
  · intro grid edges src dst V hV hok hbad
    have hb := buildGraph_negw edges (List.replicate V.toNat []) (by simp) hok hbad
    simp only [mkAStarSolver, if_neg (by omega : ¬ V ≤ 0), hb]
  · intro grid edges src dst V hV hedges hrect hmiss
    obtain ⟨g, hb⟩ := buildGraph_success edges (List.replicate V.toNat []) (by simp)
      hedges
    have hcoord : getCoordinates grid dst = .error .invalidArgument := by
      cases grid with
      | nil => rfl
      | cons r0 rest =>
        have hscan : scanRowsFor r0.length dst 0 (r0 :: rest) = .ok none := by
          refine scanRowsFor_none (r0 :: rest) 0 ?_
          intro row hrow
          refine ⟨by rw [hrect row hrow]; rfl, ?_⟩
          intro k hk hcontra
          obtain ⟨a, ha⟩ := List.mem_iff_getElem?.1 hrow
          have : 0 < countOcc (r0 :: rest) dst :=
            countOcc_pos_of_cellAt (i := a) (j := k) (by simp [cellAt, ha, hcontra])
          omega
        simp only [getCoordinates, hscan]
    have hih : initHeuristicValues (List.replicate V.toNat 0) grid dst =
        .error .invalidArgument := by
      simp only [initHeuristicValues, hcoord]
    simp only [mkAStarSolver, if_neg (by omega : ¬ V ≤ 0), hb, hih]
  · intro grid edges src dst V hV hedges hrect hcells hdst
    obtain ⟨g, hb⟩ := buildGraph_success edges (List.replicate V.toNat []) (by simp)
      hedges
    obtain ⟨i, j, hcell⟩ := exists_cell_of_countOcc_pos hdst
    simp only [cellAt] at hcell
    cases hrow : grid[i]? with
    | none =>
      simp only [hrow] at hcell
      cases hcell
    | some row =>
      simp only [hrow] at hcell
      cases hg : grid with
      | nil =>
        subst hg
        cases hrow
      | cons r0 rest =>
        have hw0 : ∀ r ∈ grid, r.length = r0.length := by
          intro r hr
          rw [hrect r hr, hg]
          rfl
        have hjw : j < r0.length := by
          have := hw0 row (List.getElem?_mem hrow)
          have := getElem?_some_lt_length hcell
          omega
        obtain ⟨p, hscan⟩ : ∃ p, scanRowsFor r0.length dst 0 grid = .ok (some p) := by
          refine scanRowsFor_finds grid 0 (fun r hr => by rw [hw0 r hr]) ?_
          exact ⟨i, j, row, hrow, hjw, hcell⟩
        obtain ⟨px, py⟩ := p
        have hcoord : getCoordinates grid dst = .ok (px, py) := by
          rw [hg] at hscan ⊢
          simp only [getCoordinates, hscan]
        have hrowsok : ∀ r ∈ grid, r0.length ≤ r.length ∧
            ∀ c ∈ r, c = -1 ∨ (0 ≤ c ∧ c.toNat < V.toNat) := by
          intro r hr
          refine ⟨by rw [hw0 r hr], ?_⟩
          intro c hc
          rcases hcells r hr c hc with h | ⟨h0, hlt⟩
          · exact Or.inl h
          · exact Or.inr ⟨h0, by omega⟩
        obtain ⟨hv', hinitrows, hL'⟩ := initHeuRows_success (w := r0.length)
          (x := px) (y := py) (L := V.toNat) grid 0 (List.replicate V.toNat 0)
          (by simp) hrowsok
        have hih : initHeuristicValues (List.replicate V.toNat 0) grid dst =
            .ok hv' := by
          rw [hg] at hinitrows ⊢
          simp only [initHeuristicValues]
          rw [← hg, hcoord, hg]
          exact hinitrows
        refine ⟨⟨g, hv', src, dst, V, -1, [], []⟩, ?_⟩
        simp only [mkAStarSolver, if_neg (by omega : ¬ V ≤ 0), hb]
        rw [← hg, hih]

instance (V : Int) (e : Int × Int × Int) : Decidable (edgeOk V e) :=
  inferInstanceAs (Decidable (0 ≤ e.1 ∧ e.1 < V ∧ 0 ≤ e.2.1 ∧ e.2.1 < V))

/-- Counterexample for C3 as stated.  First conjunct: with `V = 3 > 0`, no
edges, and the destination present in the grid — none of the four boundary
conditions — construction still fails (a stray cell `5` is written out of
bounds), so "otherwise construction succeeds" is false.  Second and third
conjuncts: when an out-of-range endpoint and a negative weight occur on
different edges, the first offending edge in list order decides the error
class, so neither per-condition sentence holds unconditionally. -/
theorem astar_construction_success_refuted :
    (mkAStarSolver [[0, 5]] [] 0 0 3 = .error .undefined ∧
      (0 : Int) < 3 ∧ countOcc [[0, 5]] 0 = 1) ∧
    (mkAStarSolver [[0]] [(0, 0, -1), (5, 0, 1)] 0 0 1 = .error .invalidArgument ∧
      ¬ edgeOk 1 (5, 0, 1)) ∧
    (mkAStarSolver [[0]] [(5, 0, 1), (0, 0, -1)] 0 0 1 = .error .outOfRange ∧
      (-1 : Int) < 0) := by
  refine ⟨⟨?_, ?_, ?_⟩, ⟨?_, ?_⟩, ?_, ?_⟩
  · decide
  · decide
  · decide
  · decide
  · decide
  · decide
  · decide

/-- Witness for C3: each clause of the taxonomy applied at a concrete input. -/
theorem astar_construction_errors_witness :
    mkAStarSolver [] [] 0 0 0 = .error .invalidArgument ∧
    mkAStarSolver [[0]] [(0, 2, 1)] 0 0 1 = .error .outOfRange ∧
    mkAStarSolver [[0]] [(0, 0, -3)] 0 0 1 = .error .invalidArgument ∧
    mkAStarSolver [[0]] [] 0 7 1 = .error .invalidArgument ∧
    ∃ s, mkAStarSolver [[0]] [] 0 0 1 = .ok s := by
  refine ⟨?_, ?_, ?_, ?_, ?_⟩
  · exact astar_construction_errors.1 [] [] 0 0 0 (by decide)
  · exact astar_construction_errors.2.1 [[0]] [(0, 2, 1)] 0 0 1 (by decide)
      (by decide) (by decide)
  · exact astar_construction_errors.2.2.1 [[0]] [(0, 0, -3)] 0 0 1 (by decide)
      (by decide) (by decide)
  · exact astar_construction_errors.2.2.2.1 [[0]] [] 0 7 1 (by decide) (by decide)
      (by decide) (by decide)
  · exact astar_construction_errors.2.2.2.2 [[0]] [] 0 0 1 (by decide) (by decide)
      (by decide) (by decide) (by decide)

/-! ### Value characterization of the heuristic-caching scan -/

theorem initHeuRow_preserve {row : List Int} {i x y : Nat} {t : Int} (ht0 : 0 ≤ t) :
    ∀ (r j : Nat) (hv hv' : List Int), initHeuRow hv row i x y j r = .ok hv' →
      (∀ k : Nat, j ≤ k → k < j + r → row[k]? ≠ some t) →
      hv'[t.toNat]? = hv[t.toNat]? := by
  intro r
  induction r with
  | zero =>
    intro j hv hv' h _
    injection h with h
    rw [h]
  | succ r ih =>
    intro j hv hv' h hmiss
    unfold initHeuRow at h
    cases hc : row[j]? with
    | none =>
      simp only [hc] at h
      cases h
    | some c =>
      simp only [hc] at h
      split at h
      · exact ih (j + 1) hv hv' h (fun k h1 h2 => hmiss k (by omega) (by omega))
      · cases hS : vSet hv c (getManhattenDistance i j x y) with
        | error e =>
          simp only [hS] at h
          cases h
        | ok hv1 =>
          simp only [hS] at h
          obtain ⟨⟨hc0, hclen⟩, hset⟩ := vSet_ok_iff.1 hS
          have hct : c ≠ t := by
            intro hh
            exact hmiss j (le_refl j) (by omega) (hh ▸ hc)
          have hstep : hv1[t.toNat]? = hv[t.toNat]? := by
            subst hset
            exact List.getElem?_set_ne (fun hh => hct (by omega))
          rw [ih (j + 1) hv1 hv' h (fun k h1 h2 => hmiss k (by omega) (by omega)), hstep]

theorem initHeuRow_write {row : List Int} {i x y : Nat} {t : Int}
    (ht0 : 0 ≤ t) (htne : t ≠ -1) :
    ∀ (r j : Nat) (hv hv' : List Int), initHeuRow hv row i x y j r = .ok hv' →
      ∀ jt : Nat, row[jt]? = some t → j ≤ jt → jt < j + r →
      (∀ k : Nat, j ≤ k → k < j + r → k ≠ jt → row[k]? ≠ some t) →
      hv'[t.toNat]? = some (getManhattenDistance i jt x y) := by
  intro r
  induction r with
  | zero =>
    intro j hv hv' _ jt _ h1 h2 _
    omega
  | succ r ih =>
    intro j hv hv' h jt hjt hle hlt huniq
    by_cases hjj : j = jt
    · subst hjj
      unfold initHeuRow at h
      simp only [hjt] at h
      rw [if_neg htne] at h
      cases hS : vSet hv t (getManhattenDistance i j x y) with
      | error e =>
        simp only [hS] at h
        cases h
      | ok hv1 =>
        simp only [hS] at h
        obtain ⟨⟨ht0', htlen⟩, hset⟩ := vSet_ok_iff.1 hS
        have hstep : hv1[t.toNat]? = some (getManhattenDistance i j x y) := by
          subst hset
          exact List.getElem?_set_eq_of_lt _ htlen
        rw [initHeuRow_preserve ht0 r (j + 1) hv1 hv' h
          (fun k h1 h2 => huniq k (by omega) (by omega) (by omega)), hstep]
    · unfold initHeuRow at h
      cases hc : row[j]? with
      | none =>
        simp only [hc] at h
        cases h
      | some c =>
        simp only [hc] at h
        split at h
        · exact ih (j + 1) hv hv' h jt hjt (by omega) (by omega)
            (fun k h1 h2 h3 => huniq k (by omega) (by omega) h3)
        · cases hS : vSet hv c (getManhattenDistance i j x y) with
          | error e =>
            simp only [hS] at h
            cases h
          | ok hv1 =>
            simp only [hS] at h
            exact ih (j + 1) hv1 hv' h jt hjt (by omega) (by omega)
              (fun k h1 h2 h3 => huniq k (by omega) (by omega) h3)

theorem initHeuRows_preserve {w x y : Nat} {t : Int} (ht0 : 0 ≤ t) :
    ∀ (rows : List (List Int)) (i : Nat) (hv hv' : List Int),
      initHeuRows w x y i hv rows = .ok hv' →
      (∀ (a k : Nat) (row : List Int), rows[a]? = some row → k < w →
        row[k]? ≠ some t) →
      hv'[t.toNat]? = hv[t.toNat]? := by
  intro rows
  induction rows with
  | nil =>
    intro i hv hv' h _
    injection h with h
    rw [h]
  | cons row rest ih =>
    intro i hv hv' h hmiss
    unfold initHeuRows at h
    cases hR : initHeuRow hv row i x y 0 w with
    | error e =>
      simp only [hR] at h
      cases h
    | ok hv1 =>
      simp only [hR] at h
      have hstep : hv1[t.toNat]? = hv[t.toNat]? :=
        initHeuRow_preserve ht0 w 0 hv hv1 hR
          (fun k _ hk => hmiss 0 k row (by simp) (by omega))
      rw [ih (i + 1) hv1 hv' h
        (fun a k r ha hk => hmiss (a + 1) k r (by simpa using ha) hk), hstep]

theorem initHeuRows_write {w x y : Nat} {t : Int} (ht0 : 0 ≤ t) (htne : t ≠ -1) :
    ∀ (rows : List (List Int)) (i : Nat) (hv hv' : List Int),
      initHeuRows w x y i hv rows = .ok hv' →
      ∀ (a jt : Nat) (rowt : List Int), rows[a]? = some rowt →
        rowt[jt]? = some t → jt < w →
      (∀ (a' k : Nat) (row' : List Int), rows[a']? = some row' → k < w →
        row'[k]? = some t → a' = a ∧ k = jt) →
      hv'[t.toNat]? = some (getManhattenDistance (((i + a : Nat)) : Int) jt x y) := by
  intro rows
  induction rows with
  | nil =>
    intro i hv hv' _ a jt rowt ha _ _ _
    cases ha
  | cons row rest ih =>
    intro i hv hv' h a jt rowt ha hjt hjw huniq
    unfold initHeuRows at h
    cases hR : initHeuRow hv row i x y 0 w with
    | error e =>
      simp only [hR] at h
      cases h
    | ok hv1 =>
      simp only [hR] at h
      cases a with
      | zero =>
        simp at ha
        subst ha
        have hstep : hv1[t.toNat]? = some (getManhattenDistance i jt x y) :=
          initHeuRow_write ht0 htne w 0 hv hv1 hR jt hjt (by omega) (by omega)
            (fun k _ hk hne hcontra =>
              hne (huniq 0 k row (by simp) (by omega) hcontra).2)
        have hrest : hv'[t.toNat]? = hv1[t.toNat]? :=
          initHeuRows_preserve ht0 rest (i + 1) hv1 hv' h
            (fun a' k r ha' hk hcontra => by
              have := huniq (a' + 1) k r (by simpa using ha') hk hcontra
              omega)
        rw [hrest, hstep]
        simp
      | succ a =>
        simp at ha
        have hstep : hv1[t.toNat]? = hv[t.toNat]? :=
          initHeuRow_preserve ht0 w 0 hv hv1 hR
            (fun k _ hk hcontra => by
              have := huniq 0 k row (by simp) (by omega) hcontra
              omega)
        have := ih (i + 1) hv1 hv' h a jt rowt ha hjt hjw
          (fun a' k r ha' hk hcontra => by
            have := huniq (a' + 1) k r (by simpa using ha') hk hcontra
            omega)
        rw [show i + 1 + a = i + (a + 1) from by omega] at this
        exact this

theorem initHeuRow_cells {row : List Int} {i x y L : Nat} :
    ∀ (r j : Nat) (hv hv' : List Int), hv.length = L →
      initHeuRow hv row i x y j r = .ok hv' →
      ∀ k : Nat, j ≤ k → k < j + r → ∀ c : Int, row[k]? = some c →
        c = -1 ∨ (0 ≤ c ∧ c.toNat < L) := by
  intro r
  induction r with
  | zero =>
    intro j hv hv' _ _ k h1 h2
    omega
  | succ r ih =>
    intro j hv hv' hL h k h1 h2 c hc
    unfold initHeuRow at h
    cases hcj : row[j]? with
    | none =>
      simp only [hcj] at h
      cases h
    | some cj =>
      simp only [hcj] at h
      split at h
      next hcj1 =>
        by_cases hkj : k = j
        · subst hkj
          rw [hcj] at hc
          have hcc : cj = c := Option.some.inj hc
          exact Or.inl (hcc ▸ hcj1)
        · exact ih (j + 1) hv hv' hL h k (by omega) (by omega) c hc
      next hcj1 =>
        cases hS : vSet hv cj (getManhattenDistance i j x y) with
        | error e =>
          simp only [hS] at h
          cases h
        | ok hv1 =>
          simp only [hS] at h
          obtain ⟨⟨h0, hlt⟩, hset⟩ := vSet_ok_iff.1 hS
          by_cases hkj : k = j
          · subst hkj
            rw [hcj] at hc
            have hcc : cj = c := Option.some.inj hc
            subst hcc
            exact Or.inr ⟨h0, by omega⟩
          · exact ih (j + 1) hv1 hv' (by rw [hset]; simp [hL]) h k (by omega)
              (by omega) c hc

theorem initHeuRows_cells {w x y L : Nat} :
    ∀ (rows : List (List Int)) (i : Nat) (hv hv' : List Int), hv.length = L →
      initHeuRows w x y i hv rows = .ok hv' →
      ∀ (a k : Nat) (row : List Int), rows[a]? = some row → k < w →
        ∀ c : Int, row[k]? = some c → c = -1 ∨ (0 ≤ c ∧ c.toNat < L) := by
  intro rows
  induction rows with
  | nil =>
    intro i hv hv' _ _ a k row ha
    cases ha
  | cons row rest ih =>
    intro i hv hv' hL h a k row' ha hk c hc
    unfold initHeuRows at h
    cases hR : initHeuRow hv row i x y 0 w with
    | error e =>
      simp only [hR] at h
      cases h
    | ok hv1 =>
      simp only [hR] at h
      cases a with
      | zero =>
        simp at ha
        subst ha
        exact initHeuRow_cells w 0 hv hv1 hL hR k (by omega) (by omega) c hc
      | succ a =>
        simp at ha
        exact ih (i + 1) hv1 hv' (initHeuRow_length w 0 hv hv1 hR ▸ hL) h
          a k row' ha hk c hc

theorem getCoordinates_cell {grid : List (List Int)} {dst : Int} {x y : Nat}
    (h : getCoordinates grid dst = .ok (x, y)) :
    cellAt grid x y = some dst ∧
    (∀ r0 rest, grid = r0 :: rest → y < r0.length) := by
  unfold getCoordinates at h
  cases grid with
  | nil => cases h
  | cons r0 rest =>
    cases hs : scanRowsFor r0.length dst 0 (r0 :: rest) with
    | error e =>
      simp only [hs] at h
      cases h
    | ok res =>
      cases res with
      | none =>
        simp only [hs] at h
        cases h
      | some p =>
        simp only [hs] at h
        injection h with h
        subst h
        obtain ⟨k, row, hxk, hrow, hyw, hcell⟩ := scanRowsFor_some (r0 :: rest) 0 x y hs
        constructor
        · simp only [cellAt]
          rw [show x = k from by omega, hrow]
          exact hcell
        · intro r0' rest' heq
          injection heq with h1 h2
          subst h1
          omega

theorem mk_init_inv {grid : List (List Int)} {edges : List (Int × Int × Int)}
    {src dst V : Int} {s : AStarSolver}
    (h : mkAStarSolver grid edges src dst V = .ok s) :
    ∃ (x y : Nat) (r0 : List Int) (rest : List (List Int)),
      grid = r0 :: rest ∧ getCoordinates grid dst = .ok (x, y) ∧
      initHeuRows r0.length x y 0 (List.replicate V.toNat 0) grid =
        .ok s.heuristicValues := by
  unfold mkAStarSolver at h
  split at h
  · cases h
  · cases hB : buildGraph V (List.replicate V.toNat []) edges with
    | error e =>
      simp only [hB] at h
      cases h
    | ok g =>
      simp only [hB] at h
      cases hI : initHeuristicValues (List.replicate V.toNat 0) grid dst with
      | error e =>
        simp only [hI] at h
        cases h
      | ok hv =>
        simp only [hI] at h
        injection h with h
        subst h
        unfold initHeuristicValues at hI
        cases hC : getCoordinates grid dst with
        | error e =>
          simp only [hC] at hI
          cases hI
        | ok xy =>
          simp only [hC] at hI
          obtain ⟨x, y⟩ := xy
          cases hg : grid with
          | nil =>
            subst hg
            cases hC
          | cons r0 rest =>
            rw [hg] at hI
            exact ⟨x, y, r0, rest, rfl, rfl, hI⟩

/-- C5 (amended): after a successful construction on a rectangular grid in
which the destination is a vertex appearing exactly once and every vertex id
appears at most once, the cached heuristic of every vertex present in the grid
is the Manhattan distance from its cell to the destination's cell, every
in-range vertex absent from the grid keeps heuristic `0`, and no public
operation ever modifies the table. -/
theorem astar_heuristic_table {grid : List (List Int)} {edges : List (Int × Int × Int)}
    {src dst V : Int} {s : AStarSolver}
    (hmk : mkAStarSolver grid edges src dst V = .ok s)
    (hrect : ∀ row ∈ grid, row.length = (grid.headD []).length)
    (hdstne : dst ≠ -1)
    (hatmost : ∀ v : Int, v ≠ -1 → countOcc grid v ≤ 1) :
    (∀ (v : Int) (i j : Nat), cellAt grid i j = some v → v ≠ -1 →
      ∀ (i' j' : Nat), cellAt grid i' j' = some dst →
        s.heuristicValues[v.toNat]? = some (getManhattenDistance i j i' j')) ∧
    (∀ v : Nat, v < V.toNat → (∀ (i j : Nat), cellAt grid i j ≠ some (v : Int)) →
      s.heuristicValues[v]? = some 0) ∧
    (∀ s', Reaches s s' → s'.heuristicValues = s.heuristicValues) := by
  obtain ⟨x, y, r0, rest, hg, hcoord, hinit⟩ := mk_init_inv hmk
  obtain ⟨hdstcell, hywf⟩ := getCoordinates_cell hcoord
  have hw0 : ∀ r ∈ grid, r.length = r0.length := by
    intro r hr
    rw [hrect r hr, hg]
    rfl
  refine ⟨?_, ?_, fun s' hr => (reaches_coreEq hr).2.1⟩
  · intro v i j hcell hvne i' j' hdcell
    obtain ⟨hx, hy⟩ := cell_unique (hatmost dst hdstne) hdcell hdstcell
    subst hx
    subst hy
    have hcell' := hcell
    simp only [cellAt] at hcell'
    cases hrowv : grid[i]? with
    | none =>
      simp only [hrowv] at hcell'
      cases hcell'
    | some rowv =>
      simp only [hrowv] at hcell'
      have hjw : j < r0.length := by
        have h1 := hw0 rowv (List.getElem?_mem hrowv)
        have h2 := getElem?_some_lt_length hcell'
        omega
      have hv0 : 0 ≤ v := by
        rcases initHeuRows_cells (L := V.toNat) grid 0 (List.replicate V.toNat 0)
          s.heuristicValues (by simp) hinit i j rowv hrowv hjw v hcell' with h | ⟨h0, -⟩
        · exact absurd h hvne
        · exact h0
      have hw := initHeuRows_write (w := r0.length) (x := i') (y := j') hv0 hvne
        grid 0 (List.replicate V.toNat 0) s.heuristicValues hinit i j rowv
        hrowv hcell' hjw ?_
      · rw [Nat.zero_add] at hw
        exact hw
      · intro a' k row' ha' hk hcontra
        exact cell_unique (hatmost v hvne) (by simp only [cellAt, ha']; exact hcontra)
          hcell
  · intro v hvN hmiss
    have hpres := initHeuRows_preserve (t := (v : Int)) (by omega)
      grid 0 (List.replicate V.toNat 0) s.heuristicValues hinit
      (fun a k row ha hk hcontra =>
        hmiss a k (by simp only [cellAt, ha]; exact hcontra))
    have htn : ((v : Int)).toNat = v := rfl
    rw [htn] at hpres
    rw [hpres, List.getElem?_replicate]
    simp [hvN]

theorem countOcc_single_row_grid_le_one :
    ∀ v : Int, v ≠ -1 → countOcc [[0, 1, 2]] v ≤ 1 := by
  intro v hv
  by_cases h0 : v = 0
  · subst h0
    decide
  · by_cases h1 : v = 1
    · subst h1
      decide
    · by_cases h2 : v = 2
      · subst h2
        decide
      · have e0 : countOcc [[0, 1, 2]] v = 0 := by
          simp only [countOcc, occCount]
          rw [if_neg (fun h => h0 h.symm), if_neg (fun h => h1 h.symm),
            if_neg (fun h => h2 h.symm)]
        omega

/-- Counterexample for C5 as stated: on the ragged grid `[[0], [1, 2]]` the
scan width is row 0's length `1`, so the cell `(1, 1)` holding vertex `2` is
never visited.  Construction succeeds, every vertex appears exactly once
(each count below is `1`) and the destination `0` sits at `(0, 0)`, yet
vertex `2` keeps heuristic `0` instead of its Manhattan distance `2`. -/
theorem astar_heuristic_table_refuted :
    mkAStarSolver [[0], [1, 2]] [] 0 0 3 =
      .ok ⟨[[], [], []], [0, 1, 0], 0, 0, 3, -1, [], []⟩ ∧
    countOcc [[0], [1, 2]] 0 = 1 ∧
    countOcc [[0], [1, 2]] 1 = 1 ∧
    countOcc [[0], [1, 2]] 2 = 1 ∧
    cellAt [[0], [1, 2]] 1 1 = some 2 ∧
    cellAt [[0], [1, 2]] 0 0 = some 0 ∧
    getManhattenDistance 1 1 0 0 = 2 ∧
    ([0, 1, 0] : List Int)[(2 : Int).toNat]? = some 0 := by
  refine ⟨?_, ?_, ?_, ?_, ?_, ?_, ?_, ?_⟩
  · decide
  · decide
  · decide
  · decide
  · decide
  · decide
  · decide
  · decide

/-- Witness for C5 at the rectangular three-vertex grid. -/
theorem astar_heuristic_table_witness :
    (∀ (v : Int) (i j : Nat), cellAt [[0, 1, 2]] i j = some v → v ≠ -1 →
      ∀ (i' j' : Nat), cellAt [[0, 1, 2]] i' j' = some 2 →
        ([2, 1, 0] : List Int)[v.toNat]? = some (getManhattenDistance i j i' j')) ∧
    (∀ v : Nat, v < (3 : Int).toNat →
      (∀ (i j : Nat), cellAt [[0, 1, 2]] i j ≠ some (v : Int)) →
      ([2, 1, 0] : List Int)[v]? = some 0) ∧
    (∀ s', Reaches ⟨[[(1, 5)], [(0, 5), (2, 3)], [(1, 3)]], [2, 1, 0], 0, 2, 3,
        -1, [], []⟩ s' → s'.heuristicValues = [2, 1, 0]) := by
  have hmk : mkAStarSolver [[0, 1, 2]] [(0, 1, 5), (1, 2, 3)] 0 2 3 =
      .ok ⟨[[(1, 5)], [(0, 5), (2, 3)], [(1, 3)]], [2, 1, 0], 0, 2, 3, -1, [], []⟩ := by
    decide
  exact astar_heuristic_table hmk (by decide) (by decide)
    countOcc_single_row_grid_le_one
